import Mathlib

/-!
# Verification of the Telegram-CIDR-Regions prefix engine (`src/main.py`)

This file embeds the prefix aggregation and conflict-resolution engine of
`src/main.py` in Lean and proves/refutes the frozen claims about it.

The program represents networks as `netaddr.IPNetwork` values.  An
`IPNetwork` stores an address value (possibly with host bits set), a prefix
length and an address family (`version`, 4 or 6).  Its derived quantities,
mirrored below, are (`w` is the address width of the family):

* `size = 2 ^ (w - prefixlen)`
* `first = value - value % size` (the network address, host bits cleared)
* `last = first + size - 1`
* `cidr` = the network with its address normalised to `first`
* containment (`other in self`): same version, `other.prefixlen ≥
  self.prefixlen`, and the two address values agree after shifting away
  `w - self.prefixlen` low bits (netaddr `IPNetwork.__contains__`).

The library operations used by `main.py` — `cidr_exclude` (built on
`cidr_partition`) and `cidr_merge` — are embedded faithfully below,
including their output order.  `iprange_to_cidrs` (used by `cidr_merge`
for ranges produced by coalescing) returns the unique minimal ascending
list of CIDR blocks exactly covering an address interval; it is embedded
here by the equivalent greedy construction: repeatedly emit the largest
aligned block that starts at the low end of the interval and fits in it.

Python `list.sort` / `sorted` are stable sorts; they are embedded with
`List.insertionSort`, which is also stable, and a stable sort by a total
preorder is unique, so the embedding agrees with the source for every
input.  Between `gather_prefixes` and `split_and_merge` the source passes
networks as their string renderings `str(network)`; `IPNetwork(str(n))`
reconstructs exactly `n`, so the pipeline embedding passes the network
values directly.  The rendering of an address as text (used only inside
output lines) is kept abstract as an `ipStr` parameter, as is CIDR-string
parsing (`parse`), matching the spec's treatment of fetching and
serialization as external collaborators.
-/

/-- Address width of an IP family: 32 bits for version 4, 128 for version 6
(`netaddr` module width). -/
def width (v : Nat) : Nat := if v = 4 then 32 else 128

/-- An `IPNetwork`: address family, stored address value (host bits allowed,
as in netaddr), and prefix length. -/
structure Net where
  version : Nat
  addr : Nat
  plen : Nat
deriving DecidableEq, Repr

/-- `IPNetwork.size`: number of addresses in the block. -/
def Net.size (n : Net) : Nat := 2 ^ (width n.version - n.plen)

/-- `IPNetwork.first`: the lowest address of the block (host bits cleared). -/
def Net.first (n : Net) : Nat := n.addr - n.addr % n.size

/-- `IPNetwork.last`: the highest address of the block. -/
def Net.last (n : Net) : Nat := n.first + n.size - 1

/-- `IPNetwork.cidr`: the network with its address normalised to the network
address. -/
def Net.cidr (n : Net) : Net := ⟨n.version, n.first, n.plen⟩

/-- netaddr `other in self` for two networks (`IPNetwork.__contains__`):
same family, `other` at least as specific, and the address values agree on
the top `self.plen` bits. -/
def NetContains (sup sub : Net) : Prop :=
  sup.version = sub.version ∧ sup.plen ≤ sub.plen ∧
    sub.addr / 2 ^ (width sup.version - sup.plen) =
      sup.addr / 2 ^ (width sup.version - sup.plen)

instance (sup sub : Net) : Decidable (NetContains sup sub) := by
  unfold NetContains; exact inferInstance

/-- The address ranges of two networks do not intersect. -/
def rangesDisjoint (a b : Net) : Prop := a.last < b.first ∨ b.last < a.first

instance (a b : Net) : Decidable (rangesDisjoint a b) := by
  unfold rangesDisjoint; exact inferInstance

/-- Address `x` lies in the range of network `n`. -/
def inNet (x : Nat) (n : Net) : Prop := n.first ≤ x ∧ x ≤ n.last

instance (x : Nat) (n : Net) : Decidable (inNet x n) := by
  unfold inNet; exact inferInstance

/-- Address `x` of family `v` is covered by some network in `l`. -/
def coveredV (l : List Net) (v x : Nat) : Prop :=
  ∃ n ∈ l, n.version = v ∧ inNet x n

instance (l : List Net) (v x : Nat) : Decidable (coveredV l v x) := by
  unfold coveredV; exact inferInstance

/-- A well-formed network value as produced by the netaddr parser: a real
address family and a prefix length not exceeding the family's width. -/
def ValidNet (n : Net) : Prop :=
  (n.version = 4 ∨ n.version = 6) ∧ n.plen ≤ width n.version

instance (n : Net) : Decidable (ValidNet n) := by
  unfold ValidNet; exact inferInstance

/-- The loop of netaddr `cidr_partition` (the case where the excluded block
is strictly inside the target): starting from the target block, repeatedly
split the current block in half and descend into the half holding the
excluded block, emitting the other half to the `left` list (below the
excluded block) or the `right` list (above it).  `fuel` is the number of
remaining iterations (`exclude.plen - target.plen`), `iLower` the low end of
the current block and `np` the prefix length of the two halves
(`new_prefixlen`).  The Python loop appends to `left` coarsest-first and
reverses it at the end; the recursion below appends the coarser block after
the recursive result, which yields the same (reversed) order, and conses
onto `right`, which yields Python's unreversed order. -/
def cidrPartLoop (v exFirst exPlen : Nat) : Nat → Nat → Nat → List Net × List Net
  | 0, _, _ => ([], [])
  | fuel + 1, iLower, np =>
    if np ≤ exPlen then
      let iUpper := iLower + 2 ^ (width v - np)
      if iUpper ≤ exFirst then
        let lr := cidrPartLoop v exFirst exPlen fuel iUpper (np + 1)
        (lr.1 ++ [⟨v, iLower, np⟩], lr.2)
      else
        let lr := cidrPartLoop v exFirst exPlen fuel iLower (np + 1)
        (lr.1, ⟨v, iUpper, np⟩ :: lr.2)
    else ([], [])

/-- netaddr `cidr_exclude(target, exclude) = left + right` of
`cidr_partition`: if the two blocks do not intersect the target survives
whole (normalised); if the exclude block is at least as large as the target
the target is wholly removed; otherwise the target is split around the
exclude block. -/
def cidr_exclude (target exclude : Net) : List Net :=
  if exclude.last < target.first ∨ target.last < exclude.first then
    [target.cidr]
  else if exclude.plen ≤ target.plen then
    []
  else
    let lr := cidrPartLoop target.version exclude.first exclude.plen
      (exclude.plen - target.plen) target.first (target.plen + 1)
    lr.1 ++ lr.2

/-- A `(network, region, asn)` tuple of `gather_prefixes`. -/
structure Entry where
  net : Net
  region : String
  asn : Nat
deriving DecidableEq, Repr

/-- Sort order of `main.py` line 84: ascending in the key
`(version, -prefixlen, int(network))`, i.e. by family, then prefix length
descending (most specific first), then network address ascending. -/
def entryLE (a b : Entry) : Prop :=
  a.net.version < b.net.version ∨
    (a.net.version = b.net.version ∧
      (b.net.plen < a.net.plen ∨
        (a.net.plen = b.net.plen ∧ a.net.first ≤ b.net.first)))

instance : DecidableRel entryLE := by
  intro a b; unfold entryLE; exact inferInstance

instance : IsTotal Entry entryLE := by
  constructor; intro a b; unfold entryLE; omega

instance : IsTrans Entry entryLE := by
  constructor; intro a b c; unfold entryLE; omega

/-- The stable sort of `all_networks` (line 84). -/
def sortEntries (l : List Entry) : List Entry := List.insertionSort entryLE l

/-- Lines 90–95: the settled entries that are contained in the candidate's
network and belong to a different region, in settlement order. -/
def overlapsFor (final : List Entry) (c : Entry) : List Entry :=
  final.filter fun e =>
    decide (c.net.version = e.net.version) && decide (NetContains c.net e.net)
      && decide (e.region ≠ c.region)

/-- Lines 98–115: subtract each overlapping settled network in turn from the
remaining pieces of the candidate network.  A piece is split only when it
contains the overlap; otherwise it is kept unchanged. -/
def carve (cnet : Net) (overlaps : List Net) : List Net :=
  overlaps.foldl
    (fun remaining o =>
      remaining.flatMap fun r =>
        if NetContains r o then cidr_exclude r o else [r])
    [cnet]

/-- Lines 88–122, one candidate: settle the candidate against the list built
so far, appending either the candidate unchanged (no overlaps) or the carved
remainder pieces tagged with the candidate's region and ASN. -/
def settleOne (final : List Entry) (c : Entry) : List Entry :=
  let ov := overlapsFor final c
  if ov.isEmpty then final ++ [c]
  else final ++ (carve c.net (ov.map Entry.net)).map fun n => ⟨n, c.region, c.asn⟩

/-- The Ownership Resolver (lines 84–122): sort all entries, then settle
them in order. -/
def resolve (entries : List Entry) : List Entry :=
  (sortEntries entries).foldl settleOne []

/-- One element of the `ranges` list inside netaddr `cidr_merge`: the Python
tuple `(version, last, first, cidr)`, where the fourth component survives
only if the range is never coalesced. -/
structure MRange where
  version : Nat
  rlast : Nat
  rfirst : Nat
  orig : Option Net
deriving DecidableEq, Repr

/-- Ascending order on the first three components of the `cidr_merge` range
tuples (Python tuple comparison; a tie in all three means the ranges denote
the identical block, so the fourth component never influences the output). -/
def rangeLE (a b : MRange) : Prop :=
  a.version < b.version ∨
    (a.version = b.version ∧
      (a.rlast < b.rlast ∨ (a.rlast = b.rlast ∧ a.rfirst ≤ b.rfirst)))

instance : DecidableRel rangeLE := by
  intro a b; unfold rangeLE; exact inferInstance

instance : IsTotal MRange rangeLE := by
  constructor; intro a b; unfold rangeLE; omega

instance : IsTrans MRange rangeLE := by
  constructor; intro a b c; unfold rangeLE; omega

/-- The coalescing loop of `cidr_merge`, which walks the sorted range list
from the end and merges a range into its left neighbour when they share the
family and overlap or are adjacent (`ranges[i][2] - 1 <= ranges[i-1][1]`,
i.e. `b.rfirst ≤ a.rlast + 1`).  Walking from the end and retrying the
combined element against its new left neighbour is exactly a right fold of
this step function. -/
def mergeStep (a : MRange) (acc : List MRange) : List MRange :=
  match acc with
  | [] => [a]
  | b :: rest =>
    if a.version = b.version ∧ b.rfirst ≤ a.rlast + 1 then
      ⟨a.version, b.rlast, min a.rfirst b.rfirst, none⟩ :: rest
    else a :: b :: rest

/-- Smallest prefix length `p` (searched upward from `p₀`, with `fuel`
remaining candidates) such that the block of prefix length `p` starting at
`start` is aligned and lies inside `[start, stop]`.  Runs out of fuel at
`p₀ + fuel`. -/
def greedyPlenAux (w start stop : Nat) : Nat → Nat → Nat
  | 0, p => p
  | fuel + 1, p =>
    if start % 2 ^ (w - p) = 0 ∧ start + 2 ^ (w - p) - 1 ≤ stop then p
    else greedyPlenAux w start stop fuel (p + 1)

/-- Prefix length of the largest aligned CIDR block that starts at `start`
and fits inside `[start, stop]` (for `start ≤ stop` the candidate `p = w`
always fits, so the search never runs out of fuel). -/
def greedyPlen (w start stop : Nat) : Nat := greedyPlenAux w start stop w 0

/-- netaddr `iprange_to_cidrs` on `[start, stop]`, by the equivalent greedy
construction: emit the largest aligned block starting at `start` that fits,
then continue after it.  `fuel` bounds the recursion (`stop + 1 - start`
suffices, since every block has at least one address). -/
def iprangeAux (v w stop : Nat) : Nat → Nat → List Net
  | 0, _ => []
  | fuel + 1, start =>
    if start ≤ stop then
      let p := greedyPlen w start stop
      ⟨v, start, p⟩ :: iprangeAux v w stop fuel (start + 2 ^ (w - p))
    else []

/-- The minimal ascending list of CIDR blocks exactly covering
`[start, stop]`. -/
def iprange_to_cidrs (v w start stop : Nat) : List Net :=
  iprangeAux v w stop (stop + 1 - start) start

/-- netaddr `cidr_merge`: build `(version, last, first, cidr)` ranges, sort
them, coalesce overlapping/adjacent same-family neighbours, then render each
surviving range — an untouched range as its original (normalised) block, a
coalesced range through `iprange_to_cidrs`. -/
def cidr_merge (nets : List Net) : List Net :=
  let ranges := nets.map fun n => MRange.mk n.version n.last n.first (some n)
  let sorted := List.insertionSort rangeLE ranges
  let merged := sorted.foldr mergeStep []
  merged.flatMap fun r =>
    match r.orig with
    | some n => [n.cidr]
    | none => iprange_to_cidrs r.version (width r.version) r.rfirst r.rlast

/-- `split_and_merge` (lines 131–146) after parsing: split one region's
surviving networks by family and merge each family independently. -/
def split_and_merge_nets (nets : List Net) : List Net × List Net :=
  (cidr_merge (nets.filter fun n => n.version == 4),
   cidr_merge (nets.filter fun n => n.version == 6))

/-- `split_and_merge` (lines 131–146) as written: parse each prefix string,
skipping strings the parser rejects, then split by family and merge. -/
def split_and_merge (parse : String → Option Net) (prefixes : List String) :
    List Net × List Net :=
  let nets := prefixes.filterMap parse
  split_and_merge_nets nets

/-- Sort order of `sort_networks` (lines 149–150): `(version, int(network))`. -/
def netLE (a b : Net) : Prop :=
  a.version < b.version ∨ (a.version = b.version ∧ a.first ≤ b.first)

instance : DecidableRel netLE := by
  intro a b; unfold netLE; exact inferInstance

instance : IsTotal Net netLE := by
  constructor; intro a b; unfold netLE; omega

instance : IsTrans Net netLE := by
  constructor; intro a b c; unfold netLE; omega

/-- `sort_networks` (lines 149–150). -/
def sort_networks (networks : List Net) : List Net :=
  List.insertionSort netLE networks

/-- Constant `author` of `main.py`. -/
def author : String := "RzMY"

/-- Constant `repo_name` of `main.py`. -/
def repo_name : String := "Telegram-CIDR-Regions"

/-- `build_header` (lines 153–164); the generation timestamp is an input of
the embedding. -/
def build_header (region updatedAt : String) (v4Count v6Count : Nat) :
    List String :=
  ["# NAME: Telegram" ++ region,
   "# AUTHOR: " ++ author,
   "# REPO: https://github.com/" ++ author ++ "/" ++ repo_name,
   "# UPDATED: " ++ updatedAt,
   "# IP-CIDR: " ++ toString v4Count,
   "# IP6-CIDR: " ++ toString v6Count,
   "# TOTAL: " ++ toString (v4Count + v6Count)]

/-- Output file name of `write_region_file` (line 168). -/
def fileName (region : String) : String := "Telegram" ++ region ++ ".list"

/-- The lines written by `write_region_file` (lines 167–177): header built
from the sorted list lengths, then one `IP-CIDR` line per IPv4 block and one
`IP6-CIDR` line per IPv6 block.  `ipStr` renders a network as `str(net)`. -/
def write_region_file_lines (ipStr : Net → String) (region updatedAt : String)
    (v4_networks v6_networks : List Net) : List String :=
  let v4_sorted := sort_networks v4_networks
  let v6_sorted := sort_networks v6_networks
  build_header region updatedAt v4_sorted.length v6_sorted.length
    ++ v4_sorted.map (fun n => "IP-CIDR," ++ ipStr n ++ ",Telegram" ++ region)
    ++ v6_sorted.map (fun n => "IP6-CIDR," ++ ipStr n ++ ",Telegram" ++ region)

/-- `REGION_ASNS` (lines 11–15). -/
def REGION_ASNS : List (String × List Nat) :=
  [("SG", [44907, 62014]), ("US", [59930]), ("EU", [62041, 211157])]

/-- Lines 70–79 of `gather_prefixes`: build `all_networks` from the fetched
prefix-string batches (one batch per `(region, asn)` pair, in arrival
order), parsing each string and skipping the ones the parser rejects. -/
def gather_all_networks (parse : String → Option Net)
    (batches : List (String × Nat × List String)) : List Entry :=
  batches.flatMap fun b =>
    b.2.2.filterMap fun p => (parse p).map fun n => ⟨n, b.1, b.2.1⟩

/-- Lines 59 and 124–126: the per-region prefix lists, one for every
configured region (initialised for all regions, then filled from the
resolved `final_networks` in settlement order). -/
def gather_region_nets (all_networks : List Entry) : List (String × List Net) :=
  REGION_ASNS.map fun ra =>
    (ra.1, ((resolve all_networks).filter fun e => e.region == ra.1).map Entry.net)

/-- The resolver+merger pipeline for one region name: the merged
`(v4, v6)` block lists the program would produce for that region from the
given global entry list. -/
def regionOutput (entries : List Entry) (r : String) : List Net × List Net :=
  split_and_merge_nets
    (((resolve entries).filter fun e => e.region == r).map Entry.net)

/-- Re-running the Resolver and Merger on their own output: every output
block of each listed region becomes a new input entry owned by that
region. -/
def rerunEntries (entries : List Entry) (regions : List String) : List Entry :=
  regions.flatMap fun r =>
    ((regionOutput entries r).1 ++ (regionOutput entries r).2).map
      fun n => ⟨n, r, 0⟩

/-- `main` (lines 186–199): one output file per configured region, produced
from the gathered entries through `split_and_merge` and
`write_region_file`. -/
def main_outputs (ipStr : Net → String) (updatedAt : String)
    (parse : String → Option Net)
    (batches : List (String × Nat × List String)) :
    List (String × List String) :=
  let all_networks := gather_all_networks parse batches
  (gather_region_nets all_networks).map fun rp =>
    (fileName rp.1,
     write_region_file_lines ipStr rp.1 updatedAt
       (split_and_merge_nets rp.2).1 (split_and_merge_nets rp.2).2)

/-- Two sibling blocks that could be coalesced into one block of prefix
length one shorter: same family and prefix length, the lower block aligned
to the parent block, the upper block immediately following it. -/
def siblingPair (a b : Net) : Prop :=
  a.version = b.version ∧ a.plen = b.plen ∧ 1 ≤ a.plen ∧
    a.first % 2 ^ (width a.version - a.plen + 1) = 0 ∧
    b.first = a.first + 2 ^ (width a.version - a.plen)

instance (a b : Net) : Decidable (siblingPair a b) := by
  unfold siblingPair; exact inferInstance

/-- Both merged block lists of one region, v4 first (the order the lines are
written in the region file). -/
def regionBlocks (entries : List Entry) (r : String) : List Net :=
  (regionOutput entries r).1 ++ (regionOutput entries r).2

/-- A body line of a region file carrying an IPv4 rule: it starts with the
eight characters `IP-CIDR,`. -/
def isV4Line (s : String) : Bool := s.data.take 8 == "IP-CIDR,".data

/-- A body line of a region file carrying an IPv6 rule: it starts with the
nine characters `IP6-CIDR,`. -/
def isV6Line (s : String) : Bool := s.data.take 9 == "IP6-CIDR,".data

/-- `10.0.0.0/8` (address 167772160). -/
def net10slash8 : Net := ⟨4, 167772160, 8⟩

/-- `10.0.0.0/9`. -/
def net10slash9 : Net := ⟨4, 167772160, 9⟩

/-- `10.0.0.0/10`. -/
def net10slash10 : Net := ⟨4, 167772160, 10⟩

/-- Failing input for the no-cross-region-overlap postcondition: region X
announces `10.0.0.0/10` and `10.0.0.0/9`, region Y announces `10.0.0.0/8`. -/
def overlapBugInput : List Entry :=
  [⟨net10slash10, "X", 1⟩, ⟨net10slash9, "X", 1⟩, ⟨net10slash8, "Y", 2⟩]

/-- `172.16.0.0/20` (address 2886729728). -/
def dupBlock : Net := ⟨4, 2886729728, 20⟩

/-- The identical block `172.16.0.0/20` claimed by regions A (arriving
first) and B. -/
def dupInputAB : List Entry := [⟨dupBlock, "A", 1⟩, ⟨dupBlock, "B", 2⟩]

/-- The same two duplicate entries arriving in the opposite order. -/
def dupInputBA : List Entry := [⟨dupBlock, "B", 2⟩, ⟨dupBlock, "A", 1⟩]

/-- `172.16.0.0/24`: a more specific block inside `172.16.0.0/20`. -/
def dupInner : Net := ⟨4, 2886729728, 24⟩

/-- Failing input for the literal tie-break claim: besides the duplicate
`172.16.0.0/20` claims of regions A and B, region A also announces the more
specific `172.16.0.0/24` (from a different ASN, so the carving product of the
duplicate entry is distinguishable from the original announcement). -/
def dupWithInnerInput : List Entry :=
  [⟨dupBlock, "B", 2⟩, ⟨dupBlock, "A", 1⟩, ⟨dupInner, "A", 7⟩]

/-! ## Basic facts about network blocks -/

theorem Net.size_pos (n : Net) : 0 < n.size := Nat.pos_pow_of_pos _ (by omega)

theorem Net.first_eq_div_mul (n : Net) : n.first = n.addr / n.size * n.size := by
  have h := Nat.div_add_mod' n.addr n.size
  unfold Net.first
  omega

theorem Net.first_mod (n : Net) : n.first % n.size = 0 := by
  rw [Net.first_eq_div_mul]
  exact Nat.mul_mod_left _ _

theorem Net.first_le_last (n : Net) : n.first ≤ n.last := by
  have := n.size_pos
  unfold Net.last
  omega

theorem Net.first_of_aligned (n : Net) (h : n.addr % n.size = 0) :
    n.first = n.addr := by
  unfold Net.first
  omega

theorem Net.cidr_version (n : Net) : n.cidr.version = n.version := rfl

theorem Net.cidr_plen (n : Net) : n.cidr.plen = n.plen := rfl

theorem Net.cidr_size (n : Net) : n.cidr.size = n.size := rfl

theorem Net.cidr_first (n : Net) : n.cidr.first = n.first := by
  have h : n.cidr.addr % n.cidr.size = 0 := by
    have := n.first_mod
    simpa [Net.cidr, Net.size] using this
  rw [Net.first_of_aligned _ h]
  rfl

theorem Net.cidr_last (n : Net) : n.cidr.last = n.last := by
  unfold Net.last
  rw [Net.cidr_first, Net.cidr_size]

theorem Net.first_div (n : Net) : n.first / n.size = n.addr / n.size := by
  rw [Net.first_eq_div_mul]
  exact Nat.mul_div_cancel _ n.size_pos

/-- Largest multiple of `s` below `x` is at most the largest multiple of a
divisor `t` of `s` below `x`. -/
theorem div_mul_mono_of_dvd (x s t : Nat) (_ht : 0 < t) (h : t ∣ s) :
    x / s * s ≤ x / t * t := by
  have h1 : x / s * s ≤ x := Nat.div_mul_le_self x s
  have h2 : t ∣ x / s * s := Dvd.dvd.mul_left h (x / s)
  have h3 : x / s * s / t ≤ x / t := Nat.div_le_div_right h1
  calc x / s * s = x / s * s / t * t := (Nat.div_mul_cancel h2).symm
    _ ≤ x / t * t := Nat.mul_le_mul_right t h3

/-- The smallest multiple of `t` strictly above `x` is at most any multiple
of `t` strictly above `x`. -/
theorem succ_div_mul_le_of_dvd (x t m : Nat) (ht : 0 < t) (hd : t ∣ m)
    (hx : x < m) : (x / t + 1) * t ≤ m := by
  obtain ⟨k, hk⟩ := hd
  subst hk
  have hx' : x < k * t := by rw [Nat.mul_comm k t]; exact hx
  have hxk : x / t < k := (Nat.div_lt_iff_lt_mul ht).mpr hx'
  have h2 : (x / t + 1) * t ≤ k * t := Nat.mul_le_mul_right t (by omega)
  rw [Nat.mul_comm k t] at h2
  exact h2

/-- Smallest multiple of `t` above `x` is at most the smallest multiple of a
multiple `s` of `t` above `x`. -/
theorem succ_div_mul_mono_of_dvd (x s t : Nat) (ht : 0 < t) (hs : 0 < s)
    (h : t ∣ s) : (x / t + 1) * t ≤ (x / s + 1) * s := by
  have hexp : (x / s + 1) * s = x / s * s + s := by ring
  have hx : x < (x / s + 1) * s := by
    have h1 := Nat.div_add_mod' x s
    have h2 := Nat.mod_lt x hs
    omega
  exact succ_div_mul_le_of_dvd x t _ ht (Dvd.dvd.mul_left h (x / s + 1)) hx

/-- Two distinct multiples of `t` are at least `t` apart. -/
theorem add_le_of_dvd_lt (t m₁ m₂ : Nat) (h₁ : t ∣ m₁) (h₂ : t ∣ m₂)
    (hlt : m₁ < m₂) : m₁ + t ≤ m₂ := by
  have hd : t ∣ m₂ - m₁ := Nat.dvd_sub' h₂ h₁
  have hne : m₂ - m₁ ≠ 0 := by omega
  have := Nat.le_of_dvd (by omega) hd
  omega

theorem NetContains.version_eq {a b : Net} (h : NetContains a b) :
    a.version = b.version := h.1

theorem NetContains.size_dvd {a b : Net} (h : NetContains a b) :
    b.size ∣ a.size := by
  obtain ⟨hv, hp, _⟩ := h
  unfold Net.size
  rw [hv]
  exact pow_dvd_pow 2 (Nat.sub_le_sub_left hp _)

/-- Containment in netaddr's shifted-value sense implies range inclusion of
the normalised blocks. -/
theorem NetContains.range {a b : Net} (h : NetContains a b) :
    a.first ≤ b.first ∧ b.first + b.size ≤ a.first + a.size := by
  obtain ⟨hv, hp, hdiv⟩ := h
  have hdvd : b.size ∣ a.size := NetContains.size_dvd ⟨hv, hp, hdiv⟩
  have hsa : a.size = 2 ^ (width a.version - a.plen) := rfl
  have hsb : b.size = 2 ^ (width a.version - b.plen) := by
    unfold Net.size
    rw [hv]
  have hA : a.first = b.addr / a.size * a.size := by
    rw [Net.first_eq_div_mul, hsa, ← hdiv]
  constructor
  · rw [hA, Net.first_eq_div_mul]
    exact div_mul_mono_of_dvd b.addr a.size b.size b.size_pos hdvd
  · have h1 : b.first + b.size = (b.addr / b.size + 1) * b.size := by
      rw [Net.first_eq_div_mul]
      ring
    have h2 : a.first + a.size = (b.addr / a.size + 1) * a.size := by
      rw [hA]
      ring
    rw [h1, h2]
    exact succ_div_mul_mono_of_dvd b.addr a.size b.size b.size_pos a.size_pos hdvd

theorem NetContains.sub_mem {a b : Net} (h : NetContains a b) :
    ∀ x, inNet x b → inNet x a := by
  intro x hx
  obtain ⟨h1, h2⟩ := h.range
  have hb := b.size_pos
  have ha := a.size_pos
  unfold inNet at hx ⊢
  unfold Net.last at hx ⊢
  omega

theorem inNet_first (n : Net) : inNet n.first n := ⟨le_refl _, n.first_le_last⟩

theorem NetContains.not_disjoint {a b : Net} (h : NetContains a b) :
    ¬ rangesDisjoint a b := by
  intro hd
  have h1 : inNet b.first b := inNet_first b
  have h2 : inNet b.first a := h.sub_mem _ h1
  have := b.first_le_last
  unfold inNet at h1 h2
  unfold rangesDisjoint at hd
  omega

theorem rangesDisjoint_iff (a b : Net) :
    rangesDisjoint a b ↔ ∀ x, ¬ (inNet x a ∧ inNet x b) := by
  constructor
  · intro h x hx
    unfold rangesDisjoint at h
    unfold inNet at hx
    omega
  · intro h
    by_contra hnd
    unfold rangesDisjoint at hnd
    refine h (max a.first b.first) ?_
    have ha := a.first_le_last
    have hb := b.first_le_last
    unfold inNet
    omega

/-- Equal normalised blocks contain each other in netaddr's sense. -/
theorem netContains_of_eq_block {a b : Net} (hv : a.version = b.version)
    (hp : a.plen = b.plen) (hf : a.first = b.first) : NetContains a b := by
  have hs : a.size = b.size := by
    unfold Net.size
    rw [hv, hp]
  have h1 := a.first_eq_div_mul
  have h2 := b.first_eq_div_mul
  have hd : b.addr / a.size = a.addr / a.size := by
    have : a.addr / a.size * a.size = b.addr / b.size * b.size := by
      rw [← h1, ← h2, hf]
    rw [hs] at this ⊢
    exact (Nat.eq_of_mul_eq_mul_right b.size_pos this.symm)
  exact ⟨hv, le_of_eq hp, hd⟩

/-- Equal-sized blocks: containment forces equality of the normalised
blocks. -/
theorem eq_block_of_contains {a b : Net} (h : NetContains a b)
    (hp : b.plen ≤ a.plen) : a.first = b.first ∧ a.plen = b.plen := by
  have hpe : a.plen = b.plen := le_antisymm h.2.1 hp
  have hs : a.size = b.size := by
    unfold Net.size
    rw [h.1, hpe]
  obtain ⟨h1, h2⟩ := h.range
  omega

/-! ## Correctness of the netaddr subtraction (`cidr_partition` loop) -/

theorem mod_zero_of_dvd {a b x : Nat} (h : a ∣ b) (hx : x % b = 0) :
    x % a = 0 := by
  have hbx : b ∣ x := Nat.dvd_of_mod_eq_zero hx
  obtain ⟨c, rfl⟩ := dvd_trans h hbx
  exact Nat.mul_mod_right a c

theorem inNet_mk_iff (v a p x : Nat) (hal : a % 2 ^ (width v - p) = 0) :
    inNet x ⟨v, a, p⟩ ↔ a ≤ x ∧ x < a + 2 ^ (width v - p) := by
  have hsize : (Net.mk v a p).size = 2 ^ (width v - p) := rfl
  have hfirst : (Net.mk v a p).first = a := by
    apply Net.first_of_aligned
    rw [hsize]
    exact hal
  have hpos : 0 < 2 ^ (width v - p) := Nat.pos_pow_of_pos _ (by omega)
  unfold inNet Net.last
  rw [hfirst, hsize]
  omega

theorem cidrPartLoop_spec (v exF exP : Nat) :
    ∀ fuel np lo,
      fuel + np = exP + 1 →
      1 ≤ np →
      exP ≤ width v →
      lo % 2 ^ (width v - (np - 1)) = 0 →
      lo ≤ exF →
      exF + 2 ^ (width v - exP) ≤ lo + 2 ^ (width v - (np - 1)) →
      exF % 2 ^ (width v - exP) = 0 →
      (∀ n ∈ (cidrPartLoop v exF exP fuel lo np).1
          ++ (cidrPartLoop v exF exP fuel lo np).2,
        n.version = v ∧ np ≤ n.plen ∧ n.plen ≤ exP ∧
          n.addr % 2 ^ (width v - n.plen) = 0) ∧
      (∀ x,
        (∃ n ∈ (cidrPartLoop v exF exP fuel lo np).1
            ++ (cidrPartLoop v exF exP fuel lo np).2, inNet x n) ↔
          (lo ≤ x ∧ x < lo + 2 ^ (width v - (np - 1)) ∧
            ¬ (exF ≤ x ∧ x < exF + 2 ^ (width v - exP)))) := by
  intro fuel
  induction fuel with
  | zero =>
    intro np lo hfuel hnp hw halign hlo hhi hexal
    have hnpe : np - 1 = exP := by omega
    rw [hnpe] at halign hhi
    have hfe : exF = lo := by omega
    constructor
    · intro n hn
      simp [cidrPartLoop] at hn
    · intro x
      simp only [cidrPartLoop]
      constructor
      · rintro ⟨n, hn, -⟩
        simp at hn
      · rintro ⟨h1, h2, h3⟩
        rw [hnpe]  at h2
        omega
  | succ fuel ih =>
    intro np lo hfuel hnp hw halign hlo hhi hexal
    have hnpexP : np ≤ exP := by omega
    have hnpw : np ≤ width v := le_trans hnpexP hw
    have hexpand : width v - (np - 1) = (width v - np) + 1 := by omega
    have hS : 2 ^ (width v - (np - 1)) = 2 * 2 ^ (width v - np) := by
      rw [hexpand, pow_succ]
      ring
    have hhalfpos : 0 < 2 ^ (width v - np) := Nat.pos_pow_of_pos _ (by omega)
    have hexpos : 0 < 2 ^ (width v - exP) := Nat.pos_pow_of_pos _ (by omega)
    have hdvdhal : (2 : Nat) ^ (width v - np) ∣ 2 ^ (width v - (np - 1)) := by
      rw [hS]
      exact Dvd.intro 2 (by ring)
    have hdvdex : (2 : Nat) ^ (width v - exP) ∣ 2 ^ (width v - np) :=
      pow_dvd_pow 2 (by omega)
    have hlomod : lo % 2 ^ (width v - np) = 0 := mod_zero_of_dvd hdvdhal halign
    rw [hS] at hhi
    by_cases hcase : lo + 2 ^ (width v - np) ≤ exF
    · -- exclude block lies in the upper half; emit the lower half to `left`
      have hrec := ih (np + 1) (lo + 2 ^ (width v - np)) (by omega) (by omega) hw
        (by
          have h1 : np + 1 - 1 = np := by omega
          rw [h1]
          rw [Nat.add_mod_right]
          exact hlomod)
        hcase
        (by
          have h1 : np + 1 - 1 = np := by omega
          rw [h1]
          omega)
        hexal
      obtain ⟨ih1, ih2⟩ := hrec
      have heq : cidrPartLoop v exF exP (fuel + 1) lo np =
          ((cidrPartLoop v exF exP fuel (lo + 2 ^ (width v - np)) (np + 1)).1
              ++ [⟨v, lo, np⟩],
            (cidrPartLoop v exF exP fuel (lo + 2 ^ (width v - np)) (np + 1)).2) := by
        simp only [cidrPartLoop, if_pos hnpexP, if_pos hcase]
      rw [heq]
      have hmem : ∀ n : Net,
          (n ∈ ((cidrPartLoop v exF exP fuel (lo + 2 ^ (width v - np)) (np + 1)).1
              ++ [⟨v, lo, np⟩])
            ++ (cidrPartLoop v exF exP fuel (lo + 2 ^ (width v - np)) (np + 1)).2) ↔
          (n ∈ (cidrPartLoop v exF exP fuel (lo + 2 ^ (width v - np)) (np + 1)).1
              ++ (cidrPartLoop v exF exP fuel (lo + 2 ^ (width v - np)) (np + 1)).2
            ∨ n = ⟨v, lo, np⟩) := by
        intro n
        simp [List.mem_append]
        tauto
      constructor
      · intro n hn
        rw [hmem] at hn
        rcases hn with hn | hn
        · have := ih1 n hn
          exact ⟨this.1, by omega, this.2.2.1, this.2.2.2⟩
        · subst hn
          exact ⟨rfl, le_refl _, hnpexP, hlomod⟩
      · intro x
        have hib := inNet_mk_iff v lo np x hlomod
        constructor
        · rintro ⟨n, hn, hxn⟩
          rw [hmem] at hn
          rcases hn with hn | hn
          · have h2 := (ih2 x).mp ⟨n, hn, hxn⟩
            have h3 : np + 1 - 1 = np := by omega
            rw [h3] at h2
            rw [hS]
            omega
          · subst hn
            rw [hib] at hxn
            rw [hS]
            constructor
            · omega
            constructor
            · omega
            · intro hex
              omega
        · rintro ⟨h1, h2, h3⟩
          rw [hS] at h2
          by_cases hwhich : x < lo + 2 ^ (width v - np)
          · exact ⟨⟨v, lo, np⟩, (hmem _).mpr (Or.inr rfl), hib.mpr ⟨h1, hwhich⟩⟩
          · have h4 : np + 1 - 1 = np := by omega
            have h5 := (ih2 x).mpr (by rw [h4]; exact ⟨by omega, by omega, h3⟩)
            obtain ⟨n, hn, hxn⟩ := h5
            exact ⟨n, (hmem _).mpr (Or.inl hn), hxn⟩
    · -- exclude block lies in the lower half; emit the upper half to `right`
      have hupal : (lo + 2 ^ (width v - np)) % 2 ^ (width v - np) = 0 := by
        rw [Nat.add_mod_right]
        exact hlomod
      have hexlo : (2 : Nat) ^ (width v - exP) ∣ lo :=
        dvd_trans hdvdex (Nat.dvd_of_mod_eq_zero hlomod)
      have hexhi : exF + 2 ^ (width v - exP) ≤ lo + 2 ^ (width v - np) := by
        apply add_le_of_dvd_lt _ _ _ (Nat.dvd_of_mod_eq_zero hexal)
          (Nat.dvd_add hexlo hdvdex)
        omega
      have hrec := ih (np + 1) lo (by omega) (by omega) hw
        (by
          have h1 : np + 1 - 1 = np := by omega
          rw [h1]
          exact hlomod)
        hlo
        (by
          have h1 : np + 1 - 1 = np := by omega
          rw [h1]
          exact hexhi)
        hexal
      obtain ⟨ih1, ih2⟩ := hrec
      have heq : cidrPartLoop v exF exP (fuel + 1) lo np =
          ((cidrPartLoop v exF exP fuel lo (np + 1)).1,
            ⟨v, lo + 2 ^ (width v - np), np⟩
              :: (cidrPartLoop v exF exP fuel lo (np + 1)).2) := by
        simp only [cidrPartLoop, if_pos hnpexP, if_neg hcase]
      rw [heq]
      have hmem : ∀ n : Net,
          (n ∈ (cidrPartLoop v exF exP fuel lo (np + 1)).1
              ++ (⟨v, lo + 2 ^ (width v - np), np⟩
                :: (cidrPartLoop v exF exP fuel lo (np + 1)).2)) ↔
          (n ∈ (cidrPartLoop v exF exP fuel lo (np + 1)).1
              ++ (cidrPartLoop v exF exP fuel lo (np + 1)).2
            ∨ n = ⟨v, lo + 2 ^ (width v - np), np⟩) := by
        intro n
        simp [List.mem_append]
        tauto
      constructor
      · intro n hn
        rw [hmem] at hn
        rcases hn with hn | hn
        · have := ih1 n hn
          exact ⟨this.1, by omega, this.2.2.1, this.2.2.2⟩
        · subst hn
          exact ⟨rfl, le_refl _, hnpexP, hupal⟩
      · intro x
        have hib := inNet_mk_iff v (lo + 2 ^ (width v - np)) np x hupal
        constructor
        · rintro ⟨n, hn, hxn⟩
          rw [hmem] at hn
          rcases hn with hn | hn
          · have h2 := (ih2 x).mp ⟨n, hn, hxn⟩
            have h3 : np + 1 - 1 = np := by omega
            rw [h3] at h2
            rw [hS]
            omega
          · subst hn
            rw [hib] at hxn
            rw [hS]
            constructor
            · omega
            constructor
            · omega
            · intro hex
              omega
        · rintro ⟨h1, h2, h3⟩
          rw [hS] at h2
          by_cases hwhich : x < lo + 2 ^ (width v - np)
          · have h4 : np + 1 - 1 = np := by omega
            have h5 := (ih2 x).mpr (by rw [h4]; exact ⟨h1, by omega, h3⟩)
            obtain ⟨n, hn, hxn⟩ := h5
            exact ⟨n, (hmem _).mpr (Or.inl hn), hxn⟩
          · refine ⟨⟨v, lo + 2 ^ (width v - np), np⟩,
              (hmem _).mpr (Or.inr rfl), hib.mpr ⟨by omega, by omega⟩⟩

/-- Specification of `cidr_exclude` when the candidate contains the excluded
block (the only way `gather_prefixes` calls it): the result is a list of
aligned sub-blocks of the target covering exactly the target's range minus
the excluded range. -/
theorem cidr_exclude_spec (t e : Net) (hc : NetContains t e)
    (he : e.plen ≤ width e.version) :
    (∀ n ∈ cidr_exclude t e,
        n.version = t.version ∧ t.plen < n.plen ∧ n.plen ≤ e.plen ∧
          n.addr % 2 ^ (width n.version - n.plen) = 0) ∧
    (∀ x, (∃ n ∈ cidr_exclude t e, inNet x n) ↔ (inNet x t ∧ ¬ inNet x e)) := by
  have hv := hc.version_eq
  have hnd : ¬ (e.last < t.first ∨ t.last < e.first) := by
    have h1 := hc.not_disjoint
    unfold rangesDisjoint at h1
    tauto
  rcases Nat.lt_or_ge t.plen e.plen with hlt | hge
  · have hple : ¬ (e.plen ≤ t.plen) := by omega
    have hwv : e.plen ≤ width t.version := by rw [hv]; exact he
    have hts : t.size = 2 ^ (width t.version - t.plen) := rfl
    have hes : e.size = 2 ^ (width t.version - e.plen) := by
      unfold Net.size; rw [hv]
    have hspec := cidrPartLoop_spec t.version e.first e.plen
      (e.plen - t.plen) (t.plen + 1) t.first (by omega) (by omega) hwv
      (by
        have h1 : t.plen + 1 - 1 = t.plen := by omega
        rw [h1, ← hts]
        exact t.first_mod)
      hc.range.1
      (by
        have h1 : t.plen + 1 - 1 = t.plen := by omega
        rw [h1, ← hts, ← hes]
        exact hc.range.2)
      (by rw [← hes]; exact e.first_mod)
    have heq : cidr_exclude t e =
        (cidrPartLoop t.version e.first e.plen (e.plen - t.plen) t.first
            (t.plen + 1)).1
          ++ (cidrPartLoop t.version e.first e.plen (e.plen - t.plen) t.first
            (t.plen + 1)).2 := by
      unfold cidr_exclude
      rw [if_neg hnd, if_neg hple]
    obtain ⟨h1, h2⟩ := hspec
    rw [heq]
    constructor
    · intro n hn
      have h3 := h1 n hn
      refine ⟨h3.1, by omega, h3.2.2.1, ?_⟩
      rw [h3.1]
      exact h3.2.2.2
    · intro x
      rw [h2 x]
      have h3 : t.plen + 1 - 1 = t.plen := by omega
      rw [h3, ← hts, ← hes]
      have hp1 := t.size_pos
      have hp2 := e.size_pos
      unfold inNet Net.last
      omega
  · have heq : cidr_exclude t e = [] := by
      unfold cidr_exclude
      rw [if_neg hnd, if_pos hge]
    obtain ⟨hf, hp⟩ := eq_block_of_contains hc hge
    have hs : t.size = e.size := by
      unfold Net.size
      rw [hv, hp]
    rw [heq]
    constructor
    · intro n hn
      simp at hn
    · intro x
      simp only [List.mem_nil_iff, false_and, exists_false, false_iff]
      intro hx
      obtain ⟨hx1, hx2⟩ := hx
      unfold inNet Net.last at hx1 hx2
      omega

/-- The carving fold of lines 98–115: every surviving piece stays inside the
candidate, and every candidate address is either still covered by a piece or
covered by one of the subtracted overlaps. -/
theorem carve_fold_spec (cnet : Net) :
    ∀ (ov rem : List Net),
      (∀ o ∈ ov, o.version = cnet.version ∧ o.plen ≤ width o.version) →
      (∀ n ∈ rem, n.version = cnet.version ∧ n.plen ≤ width n.version ∧
        ∀ x, inNet x n → inNet x cnet) →
      (∀ n ∈ ov.foldl (fun remaining o => remaining.flatMap fun r =>
          if NetContains r o then cidr_exclude r o else [r]) rem,
        n.version = cnet.version ∧ n.plen ≤ width n.version ∧
          ∀ x, inNet x n → inNet x cnet) ∧
      (∀ x, (∃ n ∈ rem, inNet x n) →
        (∃ n ∈ ov.foldl (fun remaining o => remaining.flatMap fun r =>
            if NetContains r o then cidr_exclude r o else [r]) rem, inNet x n)
          ∨ (∃ o ∈ ov, inNet x o)) := by
  intro ov
  induction ov with
  | nil =>
    intro rem _ hrem
    refine ⟨hrem, ?_⟩
    intro x hx
    exact Or.inl hx
  | cons o ov ih =>
    intro rem hov hrem
    have ho := hov o (List.mem_cons_self o ov)
    have hov' : ∀ o' ∈ ov, o'.version = cnet.version ∧ o'.plen ≤ width o'.version :=
      fun o' h => hov o' (List.mem_cons_of_mem _ h)
    have hrem' : ∀ n ∈ rem.flatMap (fun r =>
        if NetContains r o then cidr_exclude r o else [r]),
        n.version = cnet.version ∧ n.plen ≤ width n.version ∧
          ∀ x, inNet x n → inNet x cnet := by
      intro n hn
      rw [List.mem_flatMap] at hn
      obtain ⟨r, hr, hnr⟩ := hn
      have hrprop := hrem r hr
      by_cases hcont : NetContains r o
      · rw [if_pos hcont] at hnr
        have hsp := cidr_exclude_spec r o hcont ho.2
        have h1 := hsp.1 n hnr
        refine ⟨h1.1.trans hrprop.1, ?_, ?_⟩
        · have hwv : width n.version = width o.version := by
            rw [h1.1, hcont.version_eq]
          rw [hwv]
          exact le_trans h1.2.2.1 ho.2
        · intro x hx
          have h2 := (hsp.2 x).mp ⟨n, hnr, hx⟩
          exact hrprop.2.2 x h2.1
      · rw [if_neg hcont] at hnr
        rw [List.mem_singleton] at hnr
        subst hnr
        exact hrprop
    obtain ⟨ih1, ih2⟩ := ih (rem.flatMap fun r =>
      if NetContains r o then cidr_exclude r o else [r]) hov' hrem'
    rw [List.foldl_cons]
    constructor
    · exact ih1
    · intro x hx
      obtain ⟨r, hr, hxr⟩ := hx
      by_cases hcont : NetContains r o
      · by_cases hxo : inNet x o
        · exact Or.inr ⟨o, List.mem_cons_self o ov, hxo⟩
        · have hsp := cidr_exclude_spec r o hcont ho.2
          have h2 := (hsp.2 x).mpr ⟨hxr, hxo⟩
          obtain ⟨p, hp, hxp⟩ := h2
          have hpmem : p ∈ rem.flatMap (fun r =>
              if NetContains r o then cidr_exclude r o else [r]) := by
            rw [List.mem_flatMap]
            exact ⟨r, hr, by rw [if_pos hcont]; exact hp⟩
          rcases ih2 x ⟨p, hpmem, hxp⟩ with h | h
          · exact Or.inl h
          · obtain ⟨o', ho', hxo'⟩ := h
            exact Or.inr ⟨o', List.mem_cons_of_mem _ ho', hxo'⟩
      · have hpmem : r ∈ rem.flatMap (fun r =>
            if NetContains r o then cidr_exclude r o else [r]) := by
          rw [List.mem_flatMap]
          exact ⟨r, hr, by rw [if_neg hcont]; exact List.mem_singleton.mpr rfl⟩
        rcases ih2 x ⟨r, hpmem, hxr⟩ with h | h
        · exact Or.inl h
        · obtain ⟨o', ho', hxo'⟩ := h
          exact Or.inr ⟨o', List.mem_cons_of_mem _ ho', hxo'⟩

/-- `carve` keeps pieces inside the candidate and loses no candidate address
except to the subtracted overlaps. -/
theorem carve_spec (cnet : Net) (ov : List Net)
    (hov : ∀ o ∈ ov, o.version = cnet.version ∧ o.plen ≤ width o.version)
    (hcv : cnet.plen ≤ width cnet.version) :
    (∀ n ∈ carve cnet ov,
      n.version = cnet.version ∧ n.plen ≤ width n.version ∧
        ∀ x, inNet x n → inNet x cnet) ∧
    (∀ x, inNet x cnet →
      (∃ n ∈ carve cnet ov, inNet x n) ∨ (∃ o ∈ ov, inNet x o)) := by
  have h := carve_fold_spec cnet ov [cnet] hov
    (by
      intro n hn
      rw [List.mem_singleton] at hn
      subst hn
      exact ⟨rfl, hcv, fun x hx => hx⟩)
  unfold carve
  refine ⟨h.1, ?_⟩
  intro x hx
  exact h.2 x ⟨cnet, List.mem_singleton.mpr rfl, hx⟩

/-! ## The Ownership Resolver fold -/

theorem mem_overlapsFor (final : List Entry) (c e : Entry) :
    e ∈ overlapsFor final c ↔
      e ∈ final ∧ c.net.version = e.net.version ∧ NetContains c.net e.net ∧
        e.region ≠ c.region := by
  unfold overlapsFor
  rw [List.mem_filter]
  simp only [Bool.and_eq_true, decide_eq_true_eq]
  tauto

theorem settleOne_eq (final : List Entry) (c : Entry) :
    settleOne final c = final ++
      (if (overlapsFor final c).isEmpty then [c]
        else (carve c.net ((overlapsFor final c).map Entry.net)).map
          fun n => ⟨n, c.region, c.asn⟩) := by
  unfold settleOne
  by_cases h : (overlapsFor final c).isEmpty
  · rw [if_pos h, if_pos h]
  · rw [if_neg h, if_neg h]

theorem overlaps_nets_prop (final : List Entry) (c : Entry)
    (hall : ∀ e ∈ final, ValidNet e.net) :
    ∀ o ∈ (overlapsFor final c).map Entry.net,
      o.version = c.net.version ∧ o.plen ≤ width o.version := by
  intro o ho
  rw [List.mem_map] at ho
  obtain ⟨e₀, he₀, rfl⟩ := ho
  rw [mem_overlapsFor] at he₀
  exact ⟨he₀.2.1.symm, (hall e₀ he₀.1).2⟩

theorem settleOne_tail_spec (final : List Entry) (c : Entry)
    (hall : ∀ e ∈ final, ValidNet e.net) (hc : ValidNet c.net) :
    ∀ e ∈ settleOne final c, e ∈ final ∨
      (e.region = c.region ∧ e.asn = c.asn ∧ e.net.version = c.net.version ∧
        ValidNet e.net ∧ ∀ x, inNet x e.net → inNet x c.net) := by
  intro e he
  rw [settleOne_eq, List.mem_append] at he
  rcases he with he | he
  · exact Or.inl he
  · right
    by_cases h : (overlapsFor final c).isEmpty
    · rw [if_pos h, List.mem_singleton] at he
      subst he
      exact ⟨rfl, rfl, rfl, hc, fun x hx => hx⟩
    · rw [if_neg h, List.mem_map] at he
      obtain ⟨n, hn, rfl⟩ := he
      have hcs := carve_spec c.net ((overlapsFor final c).map Entry.net)
        (overlaps_nets_prop final c hall) hc.2
      have h1 := hcs.1 n hn
      refine ⟨rfl, rfl, h1.1, ⟨?_, h1.2.1⟩, h1.2.2⟩
      show n.version = 4 ∨ n.version = 6
      rw [h1.1]
      exact hc.1

theorem settleOne_cover (final : List Entry) (c : Entry)
    (hall : ∀ e ∈ final, ValidNet e.net) (hc : ValidNet c.net) :
    ∀ x, inNet x c.net →
      ∃ e ∈ settleOne final c, e.net.version = c.net.version ∧ inNet x e.net := by
  intro x hx
  rw [settleOne_eq]
  by_cases h : (overlapsFor final c).isEmpty
  · rw [if_pos h]
    exact ⟨c, List.mem_append.mpr (Or.inr (List.mem_singleton.mpr rfl)), rfl, hx⟩
  · rw [if_neg h]
    have hcs := carve_spec c.net ((overlapsFor final c).map Entry.net)
      (overlaps_nets_prop final c hall) hc.2
    rcases hcs.2 x hx with ⟨n, hn, hxn⟩ | ⟨o, ho, hxo⟩
    · refine ⟨⟨n, c.region, c.asn⟩, ?_, (hcs.1 n hn).1, hxn⟩
      exact List.mem_append.mpr (Or.inr (List.mem_map.mpr ⟨n, hn, rfl⟩))
    · rw [List.mem_map] at ho
      obtain ⟨e₀, he₀, rfl⟩ := ho
      rw [mem_overlapsFor] at he₀
      exact ⟨e₀, List.mem_append.mpr (Or.inl he₀.1), he₀.2.1.symm, hxo⟩

theorem settleOne_region (final : List Entry) (c : Entry) :
    ∀ e ∈ settleOne final c, e ∈ final ∨ e.region = c.region := by
  intro e he
  rw [settleOne_eq, List.mem_append] at he
  rcases he with he | he
  · exact Or.inl he
  · right
    by_cases h : (overlapsFor final c).isEmpty
    · rw [if_pos h, List.mem_singleton] at he
      subst he
      rfl
    · rw [if_neg h, List.mem_map] at he
      obtain ⟨n, hn, rfl⟩ := he
      rfl

theorem foldl_settle_valid :
    ∀ (l final : List Entry), (∀ e ∈ final, ValidNet e.net) →
      (∀ e ∈ l, ValidNet e.net) →
      ∀ e ∈ l.foldl settleOne final, ValidNet e.net := by
  intro l
  induction l with
  | nil => intro final hf _ e he; exact hf e he
  | cons c l ih =>
    intro final hf hl e he
    rw [List.foldl_cons] at he
    refine ih (settleOne final c) ?_ (fun e h => hl e (List.mem_cons_of_mem _ h)) e he
    intro e' he'
    rcases settleOne_tail_spec final c hf (hl c (List.mem_cons_self c l)) e' he' with
      h | h
    · exact hf e' h
    · exact h.2.2.2.1

theorem foldl_settle_cover :
    ∀ (l final : List Entry), (∀ e ∈ final, ValidNet e.net) →
      (∀ e ∈ l, ValidNet e.net) → ∀ v x,
      ((∃ e ∈ l.foldl settleOne final, e.net.version = v ∧ inNet x e.net) ↔
        ((∃ e ∈ final, e.net.version = v ∧ inNet x e.net) ∨
          (∃ e ∈ l, e.net.version = v ∧ inNet x e.net))) := by
  intro l
  induction l with
  | nil =>
    intro final _ _ v x
    simp
  | cons c l ih =>
    intro final hf hl v x
    rw [List.foldl_cons]
    have hcval := hl c (List.mem_cons_self c l)
    have hf' : ∀ e ∈ settleOne final c, ValidNet e.net := by
      intro e' he'
      rcases settleOne_tail_spec final c hf hcval e' he' with h | h
      · exact hf e' h
      · exact h.2.2.2.1
    rw [ih (settleOne final c) hf' (fun e h => hl e (List.mem_cons_of_mem _ h)) v x]
    constructor
    · rintro (⟨e, he, hev, hex⟩ | h)
      · rcases settleOne_tail_spec final c hf hcval e he with h | h
        · exact Or.inl ⟨e, h, hev, hex⟩
        · refine Or.inr ⟨c, List.mem_cons_self c l, ?_, h.2.2.2.2 x hex⟩
          rw [← h.2.2.1]
          exact hev
      · obtain ⟨e, he, hev, hex⟩ := h
        exact Or.inr ⟨e, List.mem_cons_of_mem _ he, hev, hex⟩
    · rintro (⟨e, he, hev, hex⟩ | ⟨e, he, hev, hex⟩)
      · refine Or.inl ⟨e, ?_, hev, hex⟩
        rw [settleOne_eq]
        exact List.mem_append.mpr (Or.inl he)
      · rcases List.mem_cons.mp he with rfl | he'
        · obtain ⟨e', he', hev', hex'⟩ := settleOne_cover final e hf hcval x hex
          exact Or.inl ⟨e', he', by rw [hev', hev], hex'⟩
        · exact Or.inr ⟨e, he', hev, hex⟩

theorem foldl_settle_origin :
    ∀ (l final : List Entry), (∀ e ∈ final, ValidNet e.net) →
      (∀ e ∈ l, ValidNet e.net) →
      ∀ e' ∈ l.foldl settleOne final, ∀ x, inNet x e'.net →
        (∃ e ∈ final, e.region = e'.region ∧ e.net.version = e'.net.version ∧
          inNet x e.net) ∨
        (∃ e ∈ l, e.region = e'.region ∧ e.net.version = e'.net.version ∧
          inNet x e.net) := by
  intro l
  induction l with
  | nil =>
    intro final _ _ e' he' x hx
    exact Or.inl ⟨e', he', rfl, rfl, hx⟩
  | cons c l ih =>
    intro final hf hl e' he' x hx
    rw [List.foldl_cons] at he'
    have hcval := hl c (List.mem_cons_self c l)
    have hf' : ∀ e ∈ settleOne final c, ValidNet e.net := by
      intro e'' he''
      rcases settleOne_tail_spec final c hf hcval e'' he'' with h | h
      · exact hf e'' h
      · exact h.2.2.2.1
    rcases ih (settleOne final c) hf'
        (fun e h => hl e (List.mem_cons_of_mem _ h)) e' he' x hx with
      ⟨e, he, hr, hv, hex⟩ | ⟨e, he, hr, hv, hex⟩
    · rcases settleOne_tail_spec final c hf hcval e he with h | h
      · exact Or.inl ⟨e, h, hr, hv, hex⟩
      · refine Or.inr ⟨c, List.mem_cons_self c l, ?_, ?_, h.2.2.2.2 x hex⟩
        · rw [← h.1]; exact hr
        · rw [← h.2.2.1]; exact hv
    · exact Or.inr ⟨e, List.mem_cons_of_mem _ he, hr, hv, hex⟩

theorem foldl_settle_region :
    ∀ (l final : List Entry), ∀ e' ∈ l.foldl settleOne final,
      (∃ e ∈ final, e'.region = e.region) ∨ (∃ e ∈ l, e'.region = e.region) := by
  intro l
  induction l with
  | nil =>
    intro final e' he'
    exact Or.inl ⟨e', he', rfl⟩
  | cons c l ih =>
    intro final e' he'
    rw [List.foldl_cons] at he'
    rcases ih (settleOne final c) e' he' with ⟨e, he, hr⟩ | ⟨e, he, hr⟩
    · rcases settleOne_region final c e he with h | h
      · exact Or.inl ⟨e, h, hr⟩
      · exact Or.inr ⟨c, List.mem_cons_self c l, by rw [hr, h]⟩
    · exact Or.inr ⟨e, List.mem_cons_of_mem _ he, hr⟩

theorem sortEntries_perm (l : List Entry) : (sortEntries l).Perm l :=
  List.perm_insertionSort entryLE l

theorem resolve_valid (entries : List Entry)
    (hv : ∀ e ∈ entries, ValidNet e.net) :
    ∀ e ∈ resolve entries, ValidNet e.net := by
  unfold resolve
  exact foldl_settle_valid (sortEntries entries) [] (by simp)
    (fun e he => hv e ((sortEntries_perm entries).mem_iff.mp he))

theorem resolve_cover (entries : List Entry)
    (hv : ∀ e ∈ entries, ValidNet e.net) : ∀ v x,
    ((∃ e ∈ resolve entries, e.net.version = v ∧ inNet x e.net) ↔
      (∃ e ∈ entries, e.net.version = v ∧ inNet x e.net)) := by
  intro v x
  unfold resolve
  rw [foldl_settle_cover (sortEntries entries) [] (by simp)
    (fun e he => hv e ((sortEntries_perm entries).mem_iff.mp he)) v x]
  constructor
  · rintro (h | ⟨e, he, hp⟩)
    · simp at h
    · exact ⟨e, (sortEntries_perm entries).mem_iff.mp he, hp⟩
  · rintro ⟨e, he, hp⟩
    exact Or.inr ⟨e, (sortEntries_perm entries).mem_iff.mpr he, hp⟩

theorem resolve_origin (entries : List Entry)
    (hv : ∀ e ∈ entries, ValidNet e.net) :
    ∀ e' ∈ resolve entries, ∀ x, inNet x e'.net →
      ∃ e ∈ entries, e.region = e'.region ∧ e.net.version = e'.net.version ∧
        inNet x e.net := by
  intro e' he' x hx
  unfold resolve at he'
  rcases foldl_settle_origin (sortEntries entries) [] (by simp)
      (fun e he => hv e ((sortEntries_perm entries).mem_iff.mp he)) e' he' x hx with
    h | ⟨e, he, hp⟩
  · simp at h
  · exact ⟨e, (sortEntries_perm entries).mem_iff.mp he, hp⟩

theorem resolve_region (entries : List Entry) :
    ∀ e' ∈ resolve entries, ∃ e ∈ entries, e'.region = e.region := by
  intro e' he'
  unfold resolve at he'
  rcases foldl_settle_region (sortEntries entries) [] e' he' with h | ⟨e, he, hr⟩
  · simp at h
  · exact ⟨e, (sortEntries_perm entries).mem_iff.mp he, hr⟩

/-! ## Correctness of the greedy range-to-CIDR construction -/

theorem greedyPlenAux_spec (w start stop : Nat) (hss : start ≤ stop) :
    ∀ fuel p, p + fuel = w →
      (p ≤ greedyPlenAux w start stop fuel p ∧
        greedyPlenAux w start stop fuel p ≤ w ∧
        (start % 2 ^ (w - greedyPlenAux w start stop fuel p) = 0 ∧
          start + 2 ^ (w - greedyPlenAux w start stop fuel p) - 1 ≤ stop) ∧
        ∀ j, p ≤ j → j < greedyPlenAux w start stop fuel p →
          ¬ (start % 2 ^ (w - j) = 0 ∧ start + 2 ^ (w - j) - 1 ≤ stop)) := by
  intro fuel
  induction fuel with
  | zero =>
    intro p hp
    have hpw : p = w := by omega
    subst hpw
    simp only [greedyPlenAux]
    refine ⟨le_refl _, le_refl _, ?_, ?_⟩
    · rw [Nat.sub_self]
      simp
      omega
    · intro j h1 h2
      omega
  | succ fuel ih =>
    intro p hp
    by_cases hpred : start % 2 ^ (w - p) = 0 ∧ start + 2 ^ (w - p) - 1 ≤ stop
    · simp only [greedyPlenAux, if_pos hpred]
      exact ⟨le_refl _, by omega, hpred, fun j h1 h2 => by omega⟩
    · simp only [greedyPlenAux, if_neg hpred]
      obtain ⟨ih1, ih2, ih3, ih4⟩ := ih (p + 1) (by omega)
      refine ⟨by omega, ih2, ih3, ?_⟩
      intro j h1 h2
      rcases Nat.eq_or_lt_of_le h1 with h | h
      · subst h
        exact hpred
      · exact ih4 j (by omega) h2

theorem greedyPlen_spec (w start stop : Nat) (hss : start ≤ stop) :
    greedyPlen w start stop ≤ w ∧
      (start % 2 ^ (w - greedyPlen w start stop) = 0 ∧
        start + 2 ^ (w - greedyPlen w start stop) - 1 ≤ stop) ∧
      ∀ j, j < greedyPlen w start stop →
        ¬ (start % 2 ^ (w - j) = 0 ∧ start + 2 ^ (w - j) - 1 ≤ stop) := by
  obtain ⟨h1, h2, h3, h4⟩ := greedyPlenAux_spec w start stop hss w 0 (by omega)
  exact ⟨h2, h3, fun j hj => h4 j (by omega) hj⟩

theorem iprangeAux_spec (v w stop : Nat) (hvw : width v = w) :
    ∀ fuel start, stop + 1 - start ≤ fuel →
      (∀ n ∈ iprangeAux v w stop fuel start,
        n.version = v ∧ n.plen ≤ w ∧ n.addr % 2 ^ (w - n.plen) = 0 ∧
          start ≤ n.addr ∧ n.addr + 2 ^ (w - n.plen) - 1 ≤ stop ∧
          ∀ j, j < n.plen →
            ¬ (n.addr % 2 ^ (w - j) = 0 ∧ n.addr + 2 ^ (w - j) - 1 ≤ stop)) ∧
      (∀ x, (∃ n ∈ iprangeAux v w stop fuel start, inNet x n) ↔
        (start ≤ x ∧ x ≤ stop)) ∧
      List.Pairwise (fun a b : Net => a.addr + 2 ^ (w - a.plen) ≤ b.addr)
        (iprangeAux v w stop fuel start) := by
  intro fuel
  induction fuel with
  | zero =>
    intro start hf
    simp only [iprangeAux]
    refine ⟨by simp, ?_, by simp⟩
    intro x
    simp
    omega
  | succ fuel ih =>
    intro start hf
    by_cases hss : start ≤ stop
    · have heq : iprangeAux v w stop (fuel + 1) start =
          ⟨v, start, greedyPlen w start stop⟩
            :: iprangeAux v w stop fuel
              (start + 2 ^ (w - greedyPlen w start stop)) := by
        simp only [iprangeAux, if_pos hss]
      obtain ⟨hg1, ⟨hg2, hg3⟩, hg4⟩ := greedyPlen_spec w start stop hss
      have hpos : 0 < 2 ^ (w - greedyPlen w start stop) :=
        Nat.pos_pow_of_pos _ (by omega)
      obtain ⟨ih1, ih2, ih3⟩ :=
        ih (start + 2 ^ (w - greedyPlen w start stop)) (by omega)
      have hhead : ∀ x, inNet x ⟨v, start, greedyPlen w start stop⟩ ↔
          (start ≤ x ∧ x < start + 2 ^ (w - greedyPlen w start stop)) := by
        intro x
        have := inNet_mk_iff v start (greedyPlen w start stop) x
          (by rw [hvw]; exact hg2)
        rw [hvw] at this
        exact this
      rw [heq]
      refine ⟨?_, ?_, ?_⟩
      · intro n hn
        rcases List.mem_cons.mp hn with rfl | hn
        · exact ⟨rfl, hg1, hg2, le_refl _, hg3, fun j hj => hg4 j hj⟩
        · have h := ih1 n hn
          exact ⟨h.1, h.2.1, h.2.2.1, by omega, h.2.2.2.2⟩
      · intro x
        constructor
        · rintro ⟨n, hn, hxn⟩
          rcases List.mem_cons.mp hn with rfl | hn
          · rw [hhead] at hxn
            omega
          · have := (ih2 x).mp ⟨n, hn, hxn⟩
            omega
        · rintro ⟨h1, h2⟩
          by_cases hlt : x < start + 2 ^ (w - greedyPlen w start stop)
          · exact ⟨_, List.mem_cons_self _ _, (hhead x).mpr ⟨h1, hlt⟩⟩
          · obtain ⟨n, hn, hxn⟩ := (ih2 x).mpr ⟨by omega, h2⟩
            exact ⟨n, List.mem_cons_of_mem _ hn, hxn⟩
      · refine List.Pairwise.cons ?_ ih3
        intro n hn
        exact (ih1 n hn).2.2.2.1
    · have heq : iprangeAux v w stop (fuel + 1) start = [] := by
        simp only [iprangeAux, if_neg hss]
      rw [heq]
      refine ⟨by simp, ?_, by simp⟩
      intro x
      simp
      omega

/-! ## Correctness of the `cidr_merge` coalescing fold -/

theorem rangeLE_version_le {a b : MRange} (h : rangeLE a b) :
    a.version ≤ b.version := by
  unfold rangeLE at h
  omega

theorem rangeLE_rlast_le {a b : MRange} (h : rangeLE a b)
    (hv : a.version = b.version) : a.rlast ≤ b.rlast := by
  unfold rangeLE at h
  omega

theorem mergeFold_spec :
    ∀ l : List MRange, List.Sorted rangeLE l →
      (∀ r ∈ l, r.rfirst ≤ r.rlast) →
      (∀ r ∈ l.foldr mergeStep [], r.rfirst ≤ r.rlast) ∧
      (∀ b t', l = b :: t' → ∃ h t, l.foldr mergeStep [] = h :: t ∧
        h.version = b.version ∧ b.rlast ≤ h.rlast) ∧
      (∀ v x, (∃ r ∈ l.foldr mergeStep [],
          r.version = v ∧ r.rfirst ≤ x ∧ x ≤ r.rlast) ↔
        (∃ r ∈ l, r.version = v ∧ r.rfirst ≤ x ∧ x ≤ r.rlast)) ∧
      List.Pairwise (fun a b : MRange => a.version ≤ b.version ∧
        (a.version = b.version → a.rlast + 2 ≤ b.rfirst)) (l.foldr mergeStep []) ∧
      (∀ r ∈ l.foldr mergeStep [], (∀ n : Net, r.orig = some n → r ∈ l) ∧
        ∃ r₀ ∈ l, r.version = r₀.version) := by
  intro l
  induction l with
  | nil => simp
  | cons a l ih =>
    intro hs hwf
    obtain ⟨hal, hs'⟩ := List.sorted_cons.mp hs
    have hwf' : ∀ r ∈ l, r.rfirst ≤ r.rlast :=
      fun r h => hwf r (List.mem_cons_of_mem _ h)
    have hwfa : a.rfirst ≤ a.rlast := hwf a (List.mem_cons_self _ _)
    obtain ⟨ih_wf, ih_head, ih_cov, ih_pw, ih_orig⟩ := ih hs' hwf'
    cases l with
    | nil =>
      simp only [List.foldr_cons, List.foldr_nil, mergeStep]
      refine ⟨?_, ?_, ?_, ?_, ?_⟩
      · intro r hr
        rw [List.mem_singleton] at hr
        rw [hr]
        exact hwfa
      · intro b t' hbt
        injection hbt with hb1 hb2
        rw [← hb1]
        exact ⟨a, [], rfl, rfl, le_refl _⟩
      · intro v x
        trivial
      · exact List.pairwise_singleton _ _
      · intro r hr
        rw [List.mem_singleton] at hr
        rw [hr]
        exact ⟨fun n _ => List.mem_singleton.mpr rfl,
          a, List.mem_singleton.mpr rfl, rfl⟩
    | cons b t' =>
      obtain ⟨h, t, hfold, hhv, hhl⟩ := ih_head b t' rfl
      have hab : rangeLE a b := hal b (List.mem_cons_self _ _)
      rw [hfold] at ih_wf ih_cov ih_pw ih_orig
      have hwfh : h.rfirst ≤ h.rlast := ih_wf h (List.mem_cons_self _ _)
      obtain ⟨hph, hpt⟩ := List.pairwise_cons.mp ih_pw
      have hfold2 : ((a :: b :: t').foldr mergeStep []) = mergeStep a (h :: t) := by
        rw [List.foldr_cons, hfold]
      by_cases hcond : a.version = h.version ∧ h.rfirst ≤ a.rlast + 1
      · have hstep : mergeStep a (h :: t) =
            ⟨a.version, h.rlast, min a.rfirst h.rfirst, none⟩ :: t := by
          simp only [mergeStep, if_pos hcond]
        rw [hfold2, hstep]
        have habv : a.version = b.version := by rw [hcond.1, hhv]
        have harl : a.rlast ≤ h.rlast :=
          le_trans (rangeLE_rlast_le hab habv) hhl
        refine ⟨?_, ?_, ?_, ?_, ?_⟩
        · intro r hr
          rcases List.mem_cons.mp hr with heq | hr
          · rw [heq]
            show min a.rfirst h.rfirst ≤ h.rlast
            omega
          · exact ih_wf r (List.mem_cons_of_mem _ hr)
        · intro b'' t'' hbt
          injection hbt with hb1 hb2
          rw [← hb1]
          exact ⟨⟨a.version, h.rlast, min a.rfirst h.rfirst, none⟩, t,
            rfl, rfl, harl⟩
        · intro v x
          constructor
          · rintro ⟨r, hr, hrv, hr1, hr2⟩
            rcases List.mem_cons.mp hr with heq | hr
            · rw [heq] at hrv hr1 hr2
              simp only at hrv hr1 hr2
              by_cases hxa : a.rfirst ≤ x ∧ x ≤ a.rlast
              · exact ⟨a, List.mem_cons_self _ _, hrv, hxa.1, hxa.2⟩
              · have hxh : h.rfirst ≤ x ∧ x ≤ h.rlast := by omega
                have h5 := (ih_cov v x).mp
                  ⟨h, List.mem_cons_self _ _, by rw [← hrv, hcond.1], hxh.1, hxh.2⟩
                obtain ⟨r', hr', hp'⟩ := h5
                exact ⟨r', List.mem_cons_of_mem _ hr', hp'⟩
            · have h5 := (ih_cov v x).mp ⟨r, List.mem_cons_of_mem _ hr, hrv, hr1, hr2⟩
              obtain ⟨r', hr', hp'⟩ := h5
              exact ⟨r', List.mem_cons_of_mem _ hr', hp'⟩
          · rintro ⟨r, hr, hrv, hr1, hr2⟩
            rcases List.mem_cons.mp hr with heq | hr
            · rw [heq] at hrv hr1 hr2
              refine ⟨⟨a.version, h.rlast, min a.rfirst h.rfirst, none⟩,
                List.mem_cons_self _ _, hrv, ?_, ?_⟩
              · simp only
                omega
              · simp only
                omega
            · obtain ⟨r', hr', hrv', hr1', hr2'⟩ :=
                (ih_cov v x).mpr ⟨r, hr, hrv, hr1, hr2⟩
              rcases List.mem_cons.mp hr' with heq | hr'
              · rw [heq] at hrv' hr1' hr2'
                refine ⟨⟨a.version, h.rlast, min a.rfirst h.rfirst, none⟩,
                  List.mem_cons_self _ _, by rw [← hrv', hcond.1], ?_, ?_⟩
                · simp only
                  omega
                · simp only
                  omega
              · exact ⟨r', List.mem_cons_of_mem _ hr', hrv', hr1', hr2'⟩
        · refine List.Pairwise.cons ?_ hpt
          intro y hy
          have hrel := hph y hy
          refine ⟨?_, ?_⟩
          · show a.version ≤ y.version
            rw [hcond.1]
            exact hrel.1
          · intro hv
            show h.rlast + 2 ≤ y.rfirst
            refine hrel.2 ?_
            rw [← hcond.1]
            exact hv
        · intro r hr
          rcases List.mem_cons.mp hr with heq | hr
          · rw [heq]
            refine ⟨?_, a, List.mem_cons_self _ _, rfl⟩
            intro n hn
            simp at hn
          · obtain ⟨ho, r₀, hr₀, hrv₀⟩ := ih_orig r (List.mem_cons_of_mem _ hr)
            exact ⟨fun n hn => List.mem_cons_of_mem _ (ho n hn),
              r₀, List.mem_cons_of_mem _ hr₀, hrv₀⟩
      · have hstep : mergeStep a (h :: t) = a :: h :: t := by
          simp only [mergeStep, if_neg hcond]
        rw [hfold2, hstep]
        have havh : a.version ≤ h.version := by
          rw [hhv]
          exact rangeLE_version_le hab
        refine ⟨?_, ?_, ?_, ?_, ?_⟩
        · intro r hr
          rcases List.mem_cons.mp hr with heq | hr
          · rw [heq]
            exact hwfa
          · exact ih_wf r hr
        · intro b'' t'' hbt
          injection hbt with hb1 hb2
          rw [← hb1]
          exact ⟨a, h :: t, rfl, rfl, le_refl _⟩
        · intro v x
          constructor
          · rintro ⟨r, hr, hp⟩
            rcases List.mem_cons.mp hr with heq | hr
            · rw [heq] at hp
              exact ⟨a, List.mem_cons_self _ _, hp⟩
            · obtain ⟨r', hr', hp'⟩ := (ih_cov v x).mp ⟨r, hr, hp⟩
              exact ⟨r', List.mem_cons_of_mem _ hr', hp'⟩
          · rintro ⟨r, hr, hp⟩
            rcases List.mem_cons.mp hr with heq | hr
            · rw [heq] at hp
              exact ⟨a, List.mem_cons_self _ _, hp⟩
            · obtain ⟨r', hr', hp'⟩ := (ih_cov v x).mpr ⟨r, hr, hp⟩
              exact ⟨r', List.mem_cons_of_mem _ hr', hp'⟩
        · refine List.Pairwise.cons ?_ ih_pw
          intro y hy
          rcases List.mem_cons.mp hy with heq | hy
          · rw [heq]
            refine ⟨havh, ?_⟩
            intro hv
            by_contra hlt
            exact hcond ⟨hv, by omega⟩
          · have hrel := hph y hy
            refine ⟨le_trans havh hrel.1, ?_⟩
            intro hv
            have hva : a.version = h.version :=
              le_antisymm havh (le_trans hrel.1 hv.ge)
            have hbv : a.version = b.version := by rw [hva, hhv]
            have hrl : a.rlast ≤ h.rlast :=
              le_trans (rangeLE_rlast_le hab hbv) hhl
            have h2 := hrel.2 (by rw [← hva]; exact hv)
            omega
        · intro r hr
          rcases List.mem_cons.mp hr with heq | hr
          · rw [heq]
            exact ⟨fun n _ => List.mem_cons_self _ _, a,
              List.mem_cons_self _ _, rfl⟩
          · obtain ⟨ho, r₀, hr₀, hrv₀⟩ := ih_orig r hr
            exact ⟨fun n hn => List.mem_cons_of_mem _ (ho n hn),
              r₀, List.mem_cons_of_mem _ hr₀, hrv₀⟩

theorem iprange_blocks_facts (v start stop : Nat) (hv46 : v = 4 ∨ v = 6)
    (_hss : start ≤ stop) :
    (∀ b ∈ iprange_to_cidrs v (width v) start stop,
        b.version = v ∧ ValidNet b ∧ start ≤ b.first ∧ b.last ≤ stop) ∧
    (∀ x, (∃ b ∈ iprange_to_cidrs v (width v) start stop, inNet x b) ↔
      (start ≤ x ∧ x ≤ stop)) ∧
    List.Pairwise
      (fun a b : Net => (a.version = b.version → a.last < b.first) ∧
        ¬ siblingPair a b ∧ ¬ siblingPair b a)
      (iprange_to_cidrs v (width v) start stop) := by
  obtain ⟨h1, h2, h3⟩ := iprangeAux_spec v (width v) stop rfl
    (stop + 1 - start) start (le_refl _)
  have hip : iprange_to_cidrs v (width v) start stop =
      iprangeAux v (width v) stop (stop + 1 - start) start := rfl
  rw [hip]
  have hfacts : ∀ b ∈ iprangeAux v (width v) stop (stop + 1 - start) start,
      b.version = v ∧ ValidNet b ∧ b.first = b.addr ∧ start ≤ b.first ∧
        b.last ≤ stop ∧ b.size = 2 ^ (width v - b.plen) := by
    intro b hb
    obtain ⟨hbv, hbp, hba, hbs, hbf, _⟩ := h1 b hb
    have hbsize : b.size = 2 ^ (width v - b.plen) := by
      unfold Net.size
      rw [hbv]
    have hbfirst : b.first = b.addr := by
      apply Net.first_of_aligned
      rw [hbsize]
      exact hba
    have hblast : b.last ≤ stop := by
      unfold Net.last
      rw [hbfirst, hbsize]
      exact hbf
    exact ⟨hbv, ⟨by rw [hbv]; exact hv46, by rw [hbv]; exact hbp⟩, hbfirst,
      by rw [hbfirst]; exact hbs, hblast, hbsize⟩
  refine ⟨fun b hb => ⟨(hfacts b hb).1, (hfacts b hb).2.1,
      (hfacts b hb).2.2.2.1, (hfacts b hb).2.2.2.2.1⟩, h2, ?_⟩
  refine List.Pairwise.imp_of_mem ?_ h3
  intro a b ha hb hab
  obtain ⟨hav, havalid, haf, has, halst, hasize⟩ := hfacts a ha
  obtain ⟨hbv, hbvalid, hbf, hbs, hblst, hbsize⟩ := hfacts b hb
  obtain ⟨-, -, -, -, hafit, hamin⟩ := h1 a ha
  obtain ⟨-, -, -, -, hbfit, -⟩ := h1 b hb
  have hpa : 0 < 2 ^ (width v - a.plen) := Nat.pos_pow_of_pos _ (by omega)
  have hpb : 0 < 2 ^ (width v - b.plen) := Nat.pos_pow_of_pos _ (by omega)
  have halast : a.last = a.addr + 2 ^ (width v - a.plen) - 1 := by
    unfold Net.last
    rw [haf, hasize]
  have hblast2 : b.last = b.addr + 2 ^ (width v - b.plen) - 1 := by
    unfold Net.last
    rw [hbf, hbsize]
  have hwa : width a.version = width v := by rw [hav]
  have hwb : width b.version = width v := by rw [hbv]
  have hplenw : a.plen ≤ width v := by
    have := havalid.2
    rw [hwa] at this
    exact this
  refine ⟨?_, ?_, ?_⟩
  · intro _
    omega
  · intro hsib
    obtain ⟨hsv, hsp, hs1, hsal, hsadj⟩ := hsib
    rw [hwa, haf] at hsal
    rw [hwa, haf, hbf] at hsadj
    have hexp : width v - (a.plen - 1) = (width v - a.plen) + 1 := by omega
    have hpow : (2 : Nat) ^ ((width v - a.plen) + 1) =
        2 * 2 ^ (width v - a.plen) := by
      rw [pow_succ]
      ring
    have hbexp : (2 : Nat) ^ (width v - b.plen) = 2 ^ (width v - a.plen) := by
      rw [hsp]
    refine hamin (a.plen - 1) (by omega) ⟨?_, ?_⟩
    · rw [hexp]
      exact hsal
    · rw [hexp, hpow]
      omega
  · intro hsib
    obtain ⟨hsv, hsp, hs1, hsal, hsadj⟩ := hsib
    rw [hwb, hbf, haf] at hsadj
    omega

/-- Master specification of `cidr_merge` for valid inputs: the output blocks
are valid and drawn from the input families, they cover exactly the input
address space, and they are strictly separated in order with no coalescable
sibling pairs in either direction. -/
theorem cidr_merge_spec (nets : List Net) (hv : ∀ n ∈ nets, ValidNet n) :
    (∀ m ∈ cidr_merge nets, ValidNet m ∧ ∃ n ∈ nets, n.version = m.version) ∧
    (∀ v x, coveredV (cidr_merge nets) v x ↔ coveredV nets v x) ∧
    List.Pairwise
      (fun a b : Net => (a.version = b.version → a.last < b.first) ∧
        ¬ siblingPair a b ∧ ¬ siblingPair b a) (cidr_merge nets) := by
  have hwfr : ∀ r ∈ nets.map fun n => MRange.mk n.version n.last n.first (some n),
      r.rfirst ≤ r.rlast := by
    intro r hr
    rw [List.mem_map] at hr
    obtain ⟨n, hn, rfl⟩ := hr
    exact n.first_le_last
  have hperm : (List.insertionSort rangeLE
      (nets.map fun n => MRange.mk n.version n.last n.first (some n))).Perm
      (nets.map fun n => MRange.mk n.version n.last n.first (some n)) :=
    List.perm_insertionSort rangeLE _
  have hsorted := List.sorted_insertionSort rangeLE
    (nets.map fun n => MRange.mk n.version n.last n.first (some n))
  have hwfs : ∀ r ∈ List.insertionSort rangeLE
      (nets.map fun n => MRange.mk n.version n.last n.first (some n)),
      r.rfirst ≤ r.rlast := fun r hr => hwfr r (hperm.mem_iff.mp hr)
  obtain ⟨mwf, -, mcov, mpw, morig⟩ := mergeFold_spec _ hsorted hwfs
  have hshape : ∀ r ∈ (List.insertionSort rangeLE
      (nets.map fun n => MRange.mk n.version n.last n.first (some n))).foldr
        mergeStep [],
      (r.version = 4 ∨ r.version = 6) ∧
        (∀ n : Net, r.orig = some n →
          n ∈ nets ∧ r = MRange.mk n.version n.last n.first (some n)) := by
    intro r hr
    obtain ⟨horig, r₀, hr₀, hver⟩ := morig r hr
    rw [hperm.mem_iff, List.mem_map] at hr₀
    obtain ⟨n₀, hn₀, rfl⟩ := hr₀
    constructor
    · rw [hver]
      exact (hv n₀ hn₀).1
    · intro n hn
      have hrmem := horig n hn
      rw [hperm.mem_iff, List.mem_map] at hrmem
      obtain ⟨n₁, hn₁, hreq⟩ := hrmem
      have : r.orig = some n₁ := by rw [← hreq]
      rw [hn] at this
      injection this with hnn
      subst hnn
      exact ⟨hn₁, hreq.symm⟩
  have hcm : cidr_merge nets = ((List.insertionSort rangeLE
      (nets.map fun n => MRange.mk n.version n.last n.first (some n))).foldr
        mergeStep []).flatMap fun r =>
      match r.orig with
      | some n => [n.cidr]
      | none => iprange_to_cidrs r.version (width r.version) r.rfirst r.rlast :=
    rfl
  have hblocks : ∀ r ∈ (List.insertionSort rangeLE
      (nets.map fun n => MRange.mk n.version n.last n.first (some n))).foldr
        mergeStep [],
      (∀ b ∈ (match r.orig with
          | some n => [n.cidr]
          | none => iprange_to_cidrs r.version (width r.version) r.rfirst r.rlast),
        b.version = r.version ∧ ValidNet b ∧ r.rfirst ≤ b.first ∧
          b.last ≤ r.rlast) ∧
      (∀ x, (∃ b ∈ (match r.orig with
          | some n => [n.cidr]
          | none => iprange_to_cidrs r.version (width r.version) r.rfirst r.rlast),
        inNet x b) ↔ (r.rfirst ≤ x ∧ x ≤ r.rlast)) ∧
      List.Pairwise
        (fun a b : Net => (a.version = b.version → a.last < b.first) ∧
          ¬ siblingPair a b ∧ ¬ siblingPair b a)
        (match r.orig with
          | some n => [n.cidr]
          | none => iprange_to_cidrs r.version (width r.version) r.rfirst r.rlast) := by
    intro r hr
    obtain ⟨hr46, hsome⟩ := hshape r hr
    cases hro : r.orig with
    | some n =>
      obtain ⟨hnn, hrn⟩ := hsome n hro
      have hnv := hv n hnn
      simp only
      refine ⟨?_, ?_, ?_⟩
      · intro b hb
        rw [List.mem_singleton] at hb
        subst hb
        refine ⟨by rw [Net.cidr_version, hrn], ?_, ?_, ?_⟩
        · constructor
          · rw [Net.cidr_version]
            exact hnv.1
          · rw [Net.cidr_version, Net.cidr_plen]
            exact hnv.2
        · rw [Net.cidr_first, hrn]
        · rw [Net.cidr_last, hrn]
      · intro x
        constructor
        · rintro ⟨b, hb, hxb⟩
          rw [List.mem_singleton] at hb
          subst hb
          unfold inNet at hxb
          rw [Net.cidr_first, Net.cidr_last] at hxb
          rw [hrn]
          exact hxb
        · rintro ⟨hx1, hx2⟩
          refine ⟨n.cidr, List.mem_singleton.mpr rfl, ?_⟩
          unfold inNet
          rw [Net.cidr_first, Net.cidr_last]
          rw [hrn] at hx1 hx2
          exact ⟨hx1, hx2⟩
      · exact List.pairwise_singleton _ _
    | none =>
      have hwfr2 : r.rfirst ≤ r.rlast := mwf r hr
      obtain ⟨f1, f2, f3⟩ := iprange_blocks_facts r.version r.rfirst r.rlast
        hr46 hwfr2
      simp only
      exact ⟨fun b hb => ⟨(f1 b hb).1, (f1 b hb).2.1, (f1 b hb).2.2.1,
        (f1 b hb).2.2.2⟩, f2, f3⟩
  rw [hcm]
  refine ⟨?_, ?_, ?_⟩
  · intro m hm
    rw [List.mem_flatMap] at hm
    obtain ⟨r, hr, hmr⟩ := hm
    obtain ⟨b1, -, -⟩ := hblocks r hr
    have hbm := b1 m hmr
    obtain ⟨horig, r₀, hr₀, hver⟩ := morig r hr
    rw [hperm.mem_iff, List.mem_map] at hr₀
    obtain ⟨n₀, hn₀, rfl⟩ := hr₀
    exact ⟨hbm.2.1, n₀, hn₀, by rw [hbm.1]; exact hver.symm⟩
  · intro v x
    unfold coveredV
    constructor
    · rintro ⟨m, hm, hmv, hmx⟩
      rw [List.mem_flatMap] at hm
      obtain ⟨r, hr, hmr⟩ := hm
      obtain ⟨b1, b2, -⟩ := hblocks r hr
      have hbm := b1 m hmr
      have hx := (b2 x).mp ⟨m, hmr, hmx⟩
      have hrv : r.version = v := by rw [← hbm.1, hmv]
      have h5 := (mcov v x).mp ⟨r, hr, hrv, hx.1, hx.2⟩
      obtain ⟨r', hr', hrv', hx1', hx2'⟩ := h5
      rw [hperm.mem_iff, List.mem_map] at hr'
      obtain ⟨n, hn, rfl⟩ := hr'
      exact ⟨n, hn, hrv', hx1', hx2'⟩
    · rintro ⟨n, hn, hnv, hnx⟩
      have hrmem : MRange.mk n.version n.last n.first (some n) ∈
          List.insertionSort rangeLE
            (nets.map fun n => MRange.mk n.version n.last n.first (some n)) := by
        rw [hperm.mem_iff, List.mem_map]
        exact ⟨n, hn, rfl⟩
      have h5 := (mcov v x).mpr
        ⟨MRange.mk n.version n.last n.first (some n), hrmem, hnv, hnx.1, hnx.2⟩
      obtain ⟨r, hr, hrv, hx1, hx2⟩ := h5
      obtain ⟨b1, b2, -⟩ := hblocks r hr
      obtain ⟨b, hb, hxb⟩ := (b2 x).mpr ⟨hx1, hx2⟩
      refine ⟨b, List.mem_flatMap.mpr ⟨r, hr, hb⟩, ?_, hxb⟩
      rw [(b1 b hb).1, hrv]
  · rw [List.pairwise_flatMap]
    constructor
    · intro r hr
      exact (hblocks r hr).2.2
    · refine List.Pairwise.imp_of_mem ?_ mpw
      intro r1 r2 hr1 hr2 hsep b1 hb1 b2 hb2
      obtain ⟨f1, -, -⟩ := hblocks r1 hr1
      obtain ⟨g1, -, -⟩ := hblocks r2 hr2
      have hb1f := f1 b1 hb1
      have hb2f := g1 b2 hb2
      have hb1size : b1.last = b1.first + b1.size - 1 := rfl
      have hb2size : b2.last = b2.first + b2.size - 1 := rfl
      have hb1pos : 0 < b1.size := b1.size_pos
      have hb2pos : 0 < b2.size := b2.size_pos
      have hgap : b1.version = b2.version → r1.rlast + 2 ≤ r2.rfirst := by
        intro hv12
        refine hsep.2 ?_
        rw [← hb1f.1, ← hb2f.1]
        exact hv12
      refine ⟨?_, ?_, ?_⟩
      · intro hv12
        have := hgap hv12
        omega
      · intro hsib
        obtain ⟨hsv, hsp, hs1, hsal, hsadj⟩ := hsib
        have hg := hgap hsv
        have hb1sz : (2 : Nat) ^ (width b1.version - b1.plen) = b1.size := rfl
        rw [hb1sz] at hsadj
        omega
      · intro hsib
        obtain ⟨hsv, hsp, hs1, hsal, hsadj⟩ := hsib
        have hg := hgap hsv.symm
        have hb2sz : (2 : Nat) ^ (width b2.version - b2.plen) = b2.size := rfl
        rw [hb2sz] at hsadj
        omega

/-! ## The per-region split-and-merge step -/

theorem coveredV_map_entry (l : List Entry) (v x : Nat) :
    coveredV (l.map Entry.net) v x ↔
      ∃ e ∈ l, e.net.version = v ∧ inNet x e.net := by
  unfold coveredV
  constructor
  · rintro ⟨n, hn, hp⟩
    rw [List.mem_map] at hn
    obtain ⟨e, he, rfl⟩ := hn
    exact ⟨e, he, hp⟩
  · rintro ⟨e, he, hp⟩
    exact ⟨e.net, List.mem_map.mpr ⟨e, he, rfl⟩, hp⟩

theorem split_merge_cover (nets : List Net) (hv : ∀ n ∈ nets, ValidNet n) :
    ∀ v x, coveredV ((split_and_merge_nets nets).1 ++ (split_and_merge_nets nets).2)
      v x ↔ coveredV nets v x := by
  intro v x
  have hv4 : ∀ n ∈ nets.filter (fun n => n.version == 4), ValidNet n :=
    fun n hn => hv n (List.mem_of_mem_filter hn)
  have hv6 : ∀ n ∈ nets.filter (fun n => n.version == 6), ValidNet n :=
    fun n hn => hv n (List.mem_of_mem_filter hn)
  have h4 := (cidr_merge_spec _ hv4).2.1 v x
  have h6 := (cidr_merge_spec _ hv6).2.1 v x
  unfold split_and_merge_nets
  simp only
  constructor
  · rintro ⟨m, hm, hmv, hmx⟩
    rcases List.mem_append.mp hm with hm | hm
    · obtain ⟨n, hn, hnv, hnx⟩ := h4.mp ⟨m, hm, hmv, hmx⟩
      exact ⟨n, List.mem_of_mem_filter hn, hnv, hnx⟩
    · obtain ⟨n, hn, hnv, hnx⟩ := h6.mp ⟨m, hm, hmv, hmx⟩
      exact ⟨n, List.mem_of_mem_filter hn, hnv, hnx⟩
  · rintro ⟨n, hn, hnv, hnx⟩
    rcases (hv n hn).1 with h46 | h46
    · obtain ⟨m, hm, hmv, hmx⟩ := h4.mpr
        ⟨n, List.mem_filter.mpr ⟨hn, by simp [h46]⟩, hnv, hnx⟩
      exact ⟨m, List.mem_append.mpr (Or.inl hm), hmv, hmx⟩
    · obtain ⟨m, hm, hmv, hmx⟩ := h6.mpr
        ⟨n, List.mem_filter.mpr ⟨hn, by simp [h46]⟩, hnv, hnx⟩
      exact ⟨m, List.mem_append.mpr (Or.inr hm), hmv, hmx⟩

theorem pairwise_mem_cases {α : Type _} {R : α → α → Prop} :
    ∀ {l : List α}, List.Pairwise R l →
      ∀ a ∈ l, ∀ b ∈ l, a = b ∨ R a b ∨ R b a := by
  intro l h
  induction h with
  | nil =>
    intro a ha
    simp at ha
  | @cons x l' hx hl ihl =>
    intro a ha b hb
    rcases List.mem_cons.mp ha with ha0 | ha1
    · rcases List.mem_cons.mp hb with hb0 | hb1
      · left
        rw [ha0, hb0]
      · right; left
        rw [ha0]
        exact hx b hb1
    · rcases List.mem_cons.mp hb with hb0 | hb1
      · right; right
        rw [hb0]
        exact hx a ha1
      · exact ihl a ha1 b hb1

/-- From the strict separation and sibling-freeness relation, derive the
claim-level minimality statement for any two distinct output blocks. -/
theorem minimality_of_pairwise (l : List Net)
    (hpw : List.Pairwise
      (fun a b : Net => (a.version = b.version → a.last < b.first) ∧
        ¬ siblingPair a b ∧ ¬ siblingPair b a) l) :
    ∀ a ∈ l, ∀ b ∈ l, a ≠ b → ¬ NetContains a b ∧ ¬ siblingPair a b := by
  intro a ha b hb hab
  rcases pairwise_mem_cases hpw a ha b hb with heq | hR | hR
  · exact absurd heq hab
  · refine ⟨?_, hR.2.1⟩
    intro hc
    have h1 := hR.1 hc.1
    obtain ⟨h2, h3⟩ := hc.range
    have h4 := b.first_le_last
    have h5 := a.size_pos
    have h6 := b.size_pos
    unfold Net.last at h1 h4
    omega
  · refine ⟨?_, hR.2.2⟩
    intro hc
    have h1 := hR.1 hc.1.symm
    obtain ⟨h2, h3⟩ := hc.range
    have h4 := b.first_le_last
    have h5 := a.size_pos
    have h6 := b.size_pos
    unfold Net.last at h1 h4
    omega

/-! ## Stable-sort uniqueness (determinism) -/

theorem entryLE_refl (a : Entry) : entryLE a a := by
  unfold entryLE
  omega

theorem entryLE_antisymm_keys {a b : Entry} (h1 : entryLE a b) (h2 : entryLE b a) :
    a.net.version = b.net.version ∧ a.net.plen = b.net.plen ∧
      a.net.first = b.net.first := by
  unfold entryLE at h1 h2
  omega

theorem sortedEntries_unique :
    ∀ (m₁ m₂ : List Entry), List.Sorted entryLE m₁ → List.Sorted entryLE m₂ →
      m₁.Perm m₂ →
      (∀ a ∈ m₁, ∀ b ∈ m₁, entryLE a b → entryLE b a → a = b) →
      m₁ = m₂ := by
  intro m₁
  induction m₁ with
  | nil =>
    intro m₂ _ _ hp _
    exact (hp.symm.eq_nil).symm
  | cons a t ih =>
    intro m₂ hs1 hs2 hp hties
    cases m₂ with
    | nil => exact absurd hp.eq_nil (by simp)
    | cons b u =>
      have hbmem : b ∈ a :: t := hp.mem_iff.mpr (List.mem_cons_self b u)
      have hamem : a ∈ b :: u := hp.mem_iff.mp (List.mem_cons_self a t)
      have hab : entryLE a b := by
        rcases List.mem_cons.mp hbmem with heq | hbt
        · rw [heq]
          exact entryLE_refl a
        · exact (List.sorted_cons.mp hs1).1 b hbt
      have hba : entryLE b a := by
        rcases List.mem_cons.mp hamem with heq | hat
        · rw [heq]
          exact entryLE_refl b
        · exact (List.sorted_cons.mp hs2).1 a hat
      have heqab : a = b := hties a (List.mem_cons_self a t) b hbmem hab hba
      rw [← heqab] at hp ⊢
      have hperm' : t.Perm u := hp.cons_inv
      have hties' : ∀ a' ∈ t, ∀ b' ∈ t, entryLE a' b' → entryLE b' a' → a' = b' :=
        fun a' ha' b' hb' => hties a' (List.mem_cons_of_mem _ ha')
          b' (List.mem_cons_of_mem _ hb')
      rw [ih u (List.sorted_cons.mp hs1).2 (List.sorted_cons.mp hs2).2
        hperm' hties']

theorem sortEntries_eq_of_perm (l₁ l₂ : List Entry) (hp : l₁.Perm l₂)
    (huniq : ∀ a ∈ l₁, ∀ b ∈ l₁, a.net.version = b.net.version →
      a.net.plen = b.net.plen → a.net.first = b.net.first → a = b) :
    sortEntries l₁ = sortEntries l₂ := by
  apply sortedEntries_unique
  · exact List.sorted_insertionSort entryLE l₁
  · exact List.sorted_insertionSort entryLE l₂
  · exact (sortEntries_perm l₁).trans (hp.trans (sortEntries_perm l₂).symm)
  · intro a ha b hb hab hba
    obtain ⟨h1, h2, h3⟩ := entryLE_antisymm_keys hab hba
    exact huniq a ((sortEntries_perm l₁).mem_iff.mp ha)
      b ((sortEntries_perm l₁).mem_iff.mp hb) h1 h2 h3

/-! ## Duplicate-block processing (tie-break machinery) -/

theorem rangesDisjoint_symm {a b : Net} (h : rangesDisjoint a b) :
    rangesDisjoint b a := by
  unfold rangesDisjoint at h ⊢
  tauto

theorem disjoint_of_sub {c B p : Net} (hd : rangesDisjoint c B)
    (hsub : ∀ x, inNet x p → inNet x c) : rangesDisjoint p B := by
  rw [rangesDisjoint_iff] at hd ⊢
  intro x hx
  exact hd x ⟨hsub x hx.1, hx.2⟩

theorem settleOne_tail_props (final : List Entry) (c : Entry)
    (hall : ∀ e ∈ final, ValidNet e.net) (hc : ValidNet c.net) :
    ∃ tail, settleOne final c = final ++ tail ∧
      ∀ e ∈ tail, e.region = c.region ∧ e.net.version = c.net.version ∧
        ValidNet e.net ∧ ∀ x, inNet x e.net → inNet x c.net := by
  rw [settleOne_eq]
  by_cases h : (overlapsFor final c).isEmpty
  · rw [if_pos h]
    refine ⟨[c], rfl, ?_⟩
    intro e he
    rw [List.mem_singleton] at he
    subst he
    exact ⟨rfl, rfl, hc, fun x hx => hx⟩
  · rw [if_neg h]
    refine ⟨_, rfl, ?_⟩
    intro e he
    rw [List.mem_map] at he
    obtain ⟨n, hn, rfl⟩ := he
    have hcs := carve_spec c.net _ (overlaps_nets_prop final c hall) hc.2
    have h1 := hcs.1 n hn
    exact ⟨rfl, h1.1, ⟨by show n.version = 4 ∨ n.version = 6; rw [h1.1]; exact hc.1,
      h1.2.1⟩, h1.2.2⟩

theorem foldl_settle_away (B : Net) :
    ∀ (l final : List Entry),
      (∀ e ∈ final, ValidNet e.net ∧
        (e.net.version = B.version → rangesDisjoint e.net B)) →
      (∀ e ∈ l, ValidNet e.net ∧
        (e.net.version = B.version → rangesDisjoint e.net B)) →
      ∀ e ∈ l.foldl settleOne final,
        ValidNet e.net ∧ (e.net.version = B.version → rangesDisjoint e.net B) := by
  intro l
  induction l with
  | nil =>
    intro final hf _ e he
    exact hf e he
  | cons c l ih =>
    intro final hf hl
    rw [List.foldl_cons]
    have hc := hl c (List.mem_cons_self c l)
    refine ih (settleOne final c) ?_ (fun e h => hl e (List.mem_cons_of_mem _ h))
    intro e he
    obtain ⟨tail, hteq, htp⟩ := settleOne_tail_props final c
      (fun e' he' => (hf e' he').1) hc.1
    rw [hteq] at he
    rcases List.mem_append.mp he with he | he
    · exact hf e he
    · obtain ⟨-, hverc, hvalid, hsub⟩ := htp e he
      refine ⟨hvalid, ?_⟩
      intro hvB
      exact disjoint_of_sub (hc.2 (by rw [← hverc]; exact hvB)) hsub

theorem settleOne_away_unchanged (final : List Entry) (d : Entry)
    (hf : ∀ e ∈ final, e.net.version = d.net.version →
      rangesDisjoint e.net d.net) :
    settleOne final d = final ++ [d] := by
  rw [settleOne_eq]
  have hnil : overlapsFor final d = [] := by
    unfold overlapsFor
    rw [List.filter_eq_nil_iff]
    intro e he hpred
    rw [Bool.and_eq_true, Bool.and_eq_true] at hpred
    obtain ⟨⟨h1, h2⟩, -⟩ := hpred
    rw [decide_eq_true_eq] at h1 h2
    exact h2.not_disjoint (rangesDisjoint_symm (hf e he h1.symm))
  rw [hnil]
  rfl

theorem foldl_settle_keep (B : Net) (d : Entry) :
    ∀ (l : List Entry) (u w : List Entry),
      (∀ e ∈ u ++ w, ValidNet e.net ∧
        (e.net.version = B.version → rangesDisjoint e.net B)) →
      ValidNet d.net →
      (∀ e ∈ l, ValidNet e.net ∧
        (e.net.version = B.version → rangesDisjoint e.net B)) →
      ∃ w', l.foldl settleOne (u ++ d :: w) = u ++ d :: (w ++ w') ∧
        ∀ e ∈ w', ValidNet e.net ∧
          (e.net.version = B.version → rangesDisjoint e.net B) := by
  intro l
  induction l with
  | nil =>
    intro u w _ _ _
    exact ⟨[], by rw [List.foldl_nil, List.append_nil], by simp⟩
  | cons c l ih =>
    intro u w hu hd hl
    have hc := hl c (List.mem_cons_self c l)
    have hfin_valid : ∀ e ∈ u ++ d :: w, ValidNet e.net := by
      intro e he
      rcases List.mem_append.mp he with he | he
      · exact (hu e (List.mem_append.mpr (Or.inl he))).1
      · rcases List.mem_cons.mp he with heq | he
        · rw [heq]
          exact hd
        · exact (hu e (List.mem_append.mpr (Or.inr he))).1
    obtain ⟨tail, hteq, htp⟩ := settleOne_tail_props (u ++ d :: w) c hfin_valid hc.1
    have htailp : ∀ e ∈ tail, ValidNet e.net ∧
        (e.net.version = B.version → rangesDisjoint e.net B) := by
      intro e he
      obtain ⟨-, hverc, hvalid, hsub⟩ := htp e he
      refine ⟨hvalid, ?_⟩
      intro hvB
      exact disjoint_of_sub (hc.2 (by rw [← hverc]; exact hvB)) hsub
    have hshape : settleOne (u ++ d :: w) c = u ++ d :: (w ++ tail) := by
      rw [hteq, List.append_assoc, List.cons_append]
    have hwt : ∀ e ∈ u ++ (w ++ tail), ValidNet e.net ∧
        (e.net.version = B.version → rangesDisjoint e.net B) := by
      intro e he
      rcases List.mem_append.mp he with he | he
      · exact hu e (List.mem_append.mpr (Or.inl he))
      · rcases List.mem_append.mp he with he | he
        · exact hu e (List.mem_append.mpr (Or.inr he))
        · exact htailp e he
    rw [List.foldl_cons, hshape]
    obtain ⟨w'', heq2, hp2⟩ := ih u (w ++ tail) hwt hd
      (fun e h => hl e (List.mem_cons_of_mem _ h))
    refine ⟨tail ++ w'', ?_, ?_⟩
    · rw [heq2, List.append_assoc]
    · intro e he
      rcases List.mem_append.mp he with he | he
      · exact htailp e he
      · exact hp2 e he

theorem settleOne_dup (u w : List Entry) (d₁ d₂ : Entry)
    (hver : d₁.net.version = d₂.net.version) (hplen : d₁.net.plen = d₂.net.plen)
    (hfirst : d₁.net.first = d₂.net.first) (hreg : d₁.region ≠ d₂.region)
    (hdis : ∀ e ∈ u ++ w, e.net.version = d₁.net.version →
      rangesDisjoint e.net d₁.net) :
    settleOne (u ++ d₁ :: w) d₂ = u ++ d₁ :: w := by
  have hsz : d₁.net.size = d₂.net.size := by
    unfold Net.size
    rw [hver, hplen]
  have hlast : d₁.net.last = d₂.net.last := by
    unfold Net.last
    rw [hfirst, hsz]
  have hB12 : d₂.net.first = d₁.net.first ∧ d₂.net.last = d₁.net.last :=
    ⟨hfirst.symm, hlast.symm⟩
  have hcont : NetContains d₂.net d₁.net :=
    netContains_of_eq_block hver.symm hplen.symm hfirst.symm
  have hpred0 : ∀ e ∈ u ++ w,
      ¬ ((decide (d₂.net.version = e.net.version) &&
          decide (NetContains d₂.net e.net) &&
          decide (e.region ≠ d₂.region)) = true) := by
    intro e he hpred
    rw [Bool.and_eq_true, Bool.and_eq_true] at hpred
    obtain ⟨⟨h1, h2⟩, -⟩ := hpred
    rw [decide_eq_true_eq] at h1 h2
    have hd1 : rangesDisjoint e.net d₁.net :=
      hdis e he (by rw [← h1, ← hver])
    have hnd := h2.not_disjoint
    unfold rangesDisjoint at hd1 hnd
    omega
  have hov : overlapsFor (u ++ d₁ :: w) d₂ = [d₁] := by
    unfold overlapsFor
    rw [List.filter_append, List.filter_cons]
    have hu0 : List.filter (fun e =>
        decide (d₂.net.version = e.net.version) &&
          decide (NetContains d₂.net e.net) && decide (e.region ≠ d₂.region)) u
        = [] :=
      List.filter_eq_nil_iff.mpr
        (fun e he => hpred0 e (List.mem_append.mpr (Or.inl he)))
    have hw0 : List.filter (fun e =>
        decide (d₂.net.version = e.net.version) &&
          decide (NetContains d₂.net e.net) && decide (e.region ≠ d₂.region)) w
        = [] :=
      List.filter_eq_nil_iff.mpr
        (fun e he => hpred0 e (List.mem_append.mpr (Or.inr he)))
    have hd1pred : (decide (d₂.net.version = d₁.net.version) &&
        decide (NetContains d₂.net d₁.net) &&
        decide (d₁.region ≠ d₂.region)) = true := by
      rw [Bool.and_eq_true, Bool.and_eq_true]
      rw [decide_eq_true_eq, decide_eq_true_eq, decide_eq_true_eq]
      exact ⟨⟨hver.symm, hcont⟩, hreg⟩
    rw [hu0, hw0, if_pos hd1pred]
    rfl
  have hexc : cidr_exclude d₂.net d₁.net = [] := by
    have hfl := d₂.net.first_le_last
    unfold cidr_exclude
    rw [if_neg (by omega), if_pos (le_of_eq hplen)]
  have hcarve : carve d₂.net [d₁.net] = [] := by
    unfold carve
    rw [List.foldl_cons, List.foldl_nil]
    simp only [List.flatMap_cons, List.flatMap_nil, List.append_nil]
    rw [if_pos hcont, hexc]
  rw [settleOne_eq, hov]
  rw [if_neg (by simp)]
  simp only [List.map_cons, List.map_nil]
  rw [hcarve]
  simp

/-! ## Output-file helpers -/

theorem take_data_append (l₁ l₂ : List Char) (k : Nat) (h : k ≤ l₁.length) :
    (l₁ ++ l₂).take k = l₁.take k := by
  rw [List.take_append_eq_append_take, Nat.sub_eq_zero_of_le h, List.take_zero,
    List.append_nil]

theorem isV4Line_false_of_ne (pre rest : String) (h8 : 8 ≤ pre.data.length)
    (hne : pre.data.take 8 ≠ "IP-CIDR,".data) :
    isV4Line (pre ++ rest) = false := by
  unfold isV4Line
  rw [String.data_append, take_data_append _ _ _ h8]
  exact beq_eq_false_iff_ne.mpr hne

theorem isV6Line_false_of_ne (pre rest : String) (h9 : 9 ≤ pre.data.length)
    (hne : pre.data.take 9 ≠ "IP6-CIDR,".data) :
    isV6Line (pre ++ rest) = false := by
  unfold isV6Line
  rw [String.data_append, take_data_append _ _ _ h9]
  exact beq_eq_false_iff_ne.mpr hne

theorem isV4Line_true (rest : String) : isV4Line ("IP-CIDR," ++ rest) = true := by
  unfold isV4Line
  rw [String.data_append, take_data_append _ _ _ (by decide)]
  rw [show ("IP-CIDR,".data).take 8 = "IP-CIDR,".data from by decide]
  exact beq_self_eq_true _

theorem isV6Line_true (rest : String) : isV6Line ("IP6-CIDR," ++ rest) = true := by
  unfold isV6Line
  rw [String.data_append, take_data_append _ _ _ (by decide)]
  rw [show ("IP6-CIDR,".data).take 9 = "IP6-CIDR,".data from by decide]
  exact beq_self_eq_true _

theorem isV6Line_v4_false (rest : String) :
    isV6Line ("IP-CIDR," ++ rest) = false := by
  unfold isV6Line
  rw [String.data_append]
  apply beq_eq_false_iff_ne.mpr
  intro h
  have h3 := congrArg (List.take 3) h
  rw [List.take_take] at h3
  norm_num at h3
  exact absurd h3 (by decide)

theorem isV4Line_v6_false (rest : String) :
    isV4Line ("IP6-CIDR," ++ rest) = false :=
  isV4Line_false_of_ne "IP6-CIDR," rest (by decide) (by decide)

theorem gather_mem_region (parse : String → Option Net)
    (batches : List (String × Nat × List String)) :
    ∀ e ∈ gather_all_networks parse batches,
      ∃ b ∈ batches, e.region = b.1 ∧ b.2.2 ≠ [] := by
  intro e he
  unfold gather_all_networks at he
  rw [List.mem_flatMap] at he
  obtain ⟨b, hb, he2⟩ := he
  rw [List.mem_filterMap] at he2
  obtain ⟨p, hp, hpe⟩ := he2
  refine ⟨b, hb, ?_, ?_⟩
  · cases hparse : parse p with
    | none =>
      rw [hparse] at hpe
      simp at hpe
    | some n =>
      rw [hparse] at hpe
      rw [Option.map_some'] at hpe
      injection hpe with hpe
      rw [← hpe]
  · intro hnil
    rw [hnil] at hp
    simp at hp

/-! ## The claims -/

/-- C1: the claim states that after the Ownership Resolver finishes, any two
settled entries from different regions and the same family have disjoint
address ranges.  The code violates this: on the input where region X
announces `10.0.0.0/10` and `10.0.0.0/9` and region Y announces
`10.0.0.0/8`, the carving loop subtracts X's `/10` before X's `/9` and then
fails the containment test `overlap_net in remain_net` for the `/9`, leaving
Y with `10.64.0.0/10`, which overlaps X's settled `10.0.0.0/9`.  This
theorem evaluates the resolver at that failing input and exhibits the
cross-region overlap. -/
theorem claim_C1_bug :
    ∃ e₁ ∈ resolve overlapBugInput, ∃ e₂ ∈ resolve overlapBugInput,
      e₁.region ≠ e₂.region ∧ e₁.net.version = e₂.net.version ∧
        ¬ rangesDisjoint e₁.net e₂.net := by decide

/-- C2: for every validly parsed entry set, the union of all per-region
output blocks across all regions equals the union of all input networks —
resolution and merging lose no address space (exact duplicate blocks are
kept once, which leaves the union unchanged). -/
theorem claim_C2 (entries : List Entry) (hv : ∀ e ∈ entries, ValidNet e.net) :
    ∀ v x, coveredV (entries.map Entry.net) v x ↔
      ∃ r, coveredV (regionBlocks entries r) v x := by
  intro v x
  have hrv := resolve_valid entries hv
  constructor
  · intro h
    rw [coveredV_map_entry] at h
    obtain ⟨e', he', hev, hex⟩ := (resolve_cover entries hv v x).mpr h
    refine ⟨e'.region, ?_⟩
    unfold regionBlocks regionOutput
    have hfv : ∀ n ∈ ((resolve entries).filter
        fun e => e.region == e'.region).map Entry.net, ValidNet n := by
      intro n hn
      rw [List.mem_map] at hn
      obtain ⟨e₀, he₀, rfl⟩ := hn
      exact hrv e₀ (List.mem_of_mem_filter he₀)
    rw [split_merge_cover _ hfv v x, coveredV_map_entry]
    exact ⟨e', List.mem_filter.mpr ⟨he', by simp⟩, hev, hex⟩
  · rintro ⟨r, h⟩
    unfold regionBlocks regionOutput at h
    have hfv : ∀ n ∈ ((resolve entries).filter
        fun e => e.region == r).map Entry.net, ValidNet n := by
      intro n hn
      rw [List.mem_map] at hn
      obtain ⟨e₀, he₀, rfl⟩ := hn
      exact hrv e₀ (List.mem_of_mem_filter he₀)
    rw [split_merge_cover _ hfv v x, coveredV_map_entry] at h
    obtain ⟨e', he', hev, hex⟩ := h
    rw [coveredV_map_entry]
    exact (resolve_cover entries hv v x).mp
      ⟨e', List.mem_of_mem_filter he', hev, hex⟩

/-- Witness for C2 at a concrete input. -/
theorem claim_C2_witness :
    (∀ e ∈ dupInputAB, ValidNet e.net) ∧
      (coveredV (dupInputAB.map Entry.net) 4 2886729728 ↔
        ∃ r, coveredV (regionBlocks dupInputAB r) 4 2886729728) :=
  ⟨by decide, claim_C2 dupInputAB (by decide) 4 2886729728⟩

/-- C3: for every region and family, the Region Merger output has the same
union as its input family's networks, contains only that family, no output
block contains another, no two output blocks form a coalescable sibling
pair, and the two `/25` halves of `192.168.0.0/24` are coalesced into the
`/24`. -/
theorem claim_C3 (nets : List Net) (hv : ∀ n ∈ nets, ValidNet n) :
    (∀ m ∈ (split_and_merge_nets nets).1, m.version = 4) ∧
    (∀ m ∈ (split_and_merge_nets nets).2, m.version = 6) ∧
    (∀ v x, coveredV (split_and_merge_nets nets).1 v x ↔
      coveredV (nets.filter fun n => n.version == 4) v x) ∧
    (∀ v x, coveredV (split_and_merge_nets nets).2 v x ↔
      coveredV (nets.filter fun n => n.version == 6) v x) ∧
    (∀ a ∈ (split_and_merge_nets nets).1, ∀ b ∈ (split_and_merge_nets nets).1,
      a ≠ b → ¬ NetContains a b ∧ ¬ siblingPair a b) ∧
    (∀ a ∈ (split_and_merge_nets nets).2, ∀ b ∈ (split_and_merge_nets nets).2,
      a ≠ b → ¬ NetContains a b ∧ ¬ siblingPair a b) ∧
    split_and_merge_nets [⟨4, 3232235520, 25⟩, ⟨4, 3232235648, 25⟩] =
      ([⟨4, 3232235520, 24⟩], []) := by
  have hv4 : ∀ n ∈ nets.filter (fun n => n.version == 4), ValidNet n :=
    fun n hn => hv n (List.mem_of_mem_filter hn)
  have hv6 : ∀ n ∈ nets.filter (fun n => n.version == 6), ValidNet n :=
    fun n hn => hv n (List.mem_of_mem_filter hn)
  obtain ⟨m4a, m4b, m4c⟩ := cidr_merge_spec _ hv4
  obtain ⟨m6a, m6b, m6c⟩ := cidr_merge_spec _ hv6
  have hfst : (split_and_merge_nets nets).1 =
      cidr_merge (nets.filter fun n => n.version == 4) := rfl
  have hsnd : (split_and_merge_nets nets).2 =
      cidr_merge (nets.filter fun n => n.version == 6) := rfl
  refine ⟨?_, ?_, ?_, ?_, ?_, ?_, by decide⟩
  · intro m hm
    rw [hfst] at hm
    obtain ⟨-, n, hn, hnv⟩ := m4a m hm
    have h2 := (List.mem_filter.mp hn).2
    rw [← hnv]
    simpa using h2
  · intro m hm
    rw [hsnd] at hm
    obtain ⟨-, n, hn, hnv⟩ := m6a m hm
    have h2 := (List.mem_filter.mp hn).2
    rw [← hnv]
    simpa using h2
  · intro v x
    rw [hfst]
    exact m4b v x
  · intro v x
    rw [hsnd]
    exact m6b v x
  · rw [hfst]
    exact minimality_of_pairwise _ m4c
  · rw [hsnd]
    exact minimality_of_pairwise _ m6c

/-- Witness for C3 at a concrete input. -/
theorem claim_C3_witness :
    (∀ n ∈ [(⟨4, 3232235520, 25⟩ : Net), ⟨4, 3232235648, 25⟩], ValidNet n) ∧
      ∀ m ∈ (split_and_merge_nets
          [(⟨4, 3232235520, 25⟩ : Net), ⟨4, 3232235648, 25⟩]).1, m.version = 4 :=
  ⟨by decide,
    (claim_C3 [⟨4, 3232235520, 25⟩, ⟨4, 3232235648, 25⟩] (by decide)).1⟩

/-- C4, counterexample to the literal claim: in `dupWithInnerInput`, regions
B and A both claim `172.16.0.0/20` (B is settled first per the sort order)
and region A additionally claims `172.16.0.0/24`.  The later duplicate's
carving does *not* remove all of itself: it contributes the `/24` block
(with the `/20` entry's ASN 1), and the first-settled duplicate does not
keep the entire block either. -/
theorem claim_C4_counterexample :
    (⟨dupInner, "A", 1⟩ : Entry) ∈ resolve dupWithInnerInput ∧
      ¬ ((⟨dupBlock, "B", 2⟩ : Entry) ∈ resolve dupWithInnerInput) := by decide

/-- C4, amended: when two entries have identical family, prefix length and
base address but different regions, **and every other input entry of the
same family is range-disjoint from that block**, the entry settled first
(per the sort order) keeps the entire block and the later duplicate's
carving removes all of itself, contributing nothing: the duplicated block is
attributed exactly once, to the first-settled entry. -/
theorem claim_C4 (entries s₁ s₂ s₃ : List Entry) (d₁ d₂ : Entry)
    (hv : ∀ e ∈ entries, ValidNet e.net)
    (hs : sortEntries entries = s₁ ++ d₁ :: (s₂ ++ d₂ :: s₃))
    (hver : d₁.net.version = d₂.net.version)
    (hplen : d₁.net.plen = d₂.net.plen)
    (hfirst : d₁.net.first = d₂.net.first)
    (hreg : d₁.region ≠ d₂.region)
    (hdisj : ∀ e ∈ (s₁ ++ s₂) ++ s₃, e.net.version = d₁.net.version →
      rangesDisjoint e.net d₁.net) :
    d₁ ∈ resolve entries ∧
      ∀ e ∈ resolve entries, e.net.version = d₁.net.version →
        ¬ rangesDisjoint e.net d₁.net → e = d₁ := by
  have hperm := sortEntries_perm entries
  have hvs : ∀ e ∈ sortEntries entries, ValidNet e.net :=
    fun e he => hv e (hperm.mem_iff.mp he)
  have hmem₁ : ∀ e ∈ s₁, e ∈ sortEntries entries := by
    intro e he
    rw [hs]
    exact List.mem_append.mpr (Or.inl he)
  have hmem₂ : ∀ e ∈ s₂, e ∈ sortEntries entries := by
    intro e he
    rw [hs]
    exact List.mem_append.mpr (Or.inr (List.mem_cons_of_mem _
      (List.mem_append.mpr (Or.inl he))))
  have hmem₃ : ∀ e ∈ s₃, e ∈ sortEntries entries := by
    intro e he
    rw [hs]
    exact List.mem_append.mpr (Or.inr (List.mem_cons_of_mem _
      (List.mem_append.mpr (Or.inr (List.mem_cons_of_mem _ he)))))
  have hd₁mem : d₁ ∈ sortEntries entries := by
    rw [hs]
    exact List.mem_append.mpr (Or.inr (List.mem_cons_self _ _))
  have hd₁v : ValidNet d₁.net := hvs d₁ hd₁mem
  have props₁ : ∀ e ∈ s₁, ValidNet e.net ∧
      (e.net.version = d₁.net.version → rangesDisjoint e.net d₁.net) :=
    fun e he => ⟨hvs e (hmem₁ e he),
      hdisj e (List.mem_append.mpr (Or.inl (List.mem_append.mpr (Or.inl he))))⟩
  have props₂ : ∀ e ∈ s₂, ValidNet e.net ∧
      (e.net.version = d₁.net.version → rangesDisjoint e.net d₁.net) :=
    fun e he => ⟨hvs e (hmem₂ e he),
      hdisj e (List.mem_append.mpr (Or.inl (List.mem_append.mpr (Or.inr he))))⟩
  have props₃ : ∀ e ∈ s₃, ValidNet e.net ∧
      (e.net.version = d₁.net.version → rangesDisjoint e.net d₁.net) :=
    fun e he => ⟨hvs e (hmem₃ e he),
      hdisj e (List.mem_append.mpr (Or.inr he))⟩
  have h1 : resolve entries =
      (s₁ ++ d₁ :: (s₂ ++ d₂ :: s₃)).foldl settleOne [] := by
    unfold resolve
    rw [hs]
  rw [List.foldl_append, List.foldl_cons] at h1
  have hF₁ := foldl_settle_away d₁.net s₁ [] (by simp) props₁
  have hstep1 : settleOne (s₁.foldl settleOne []) d₁ =
      (s₁.foldl settleOne []) ++ [d₁] :=
    settleOne_away_unchanged _ d₁ (fun e he hve => (hF₁ e he).2 hve)
  rw [hstep1, List.foldl_append] at h1
  obtain ⟨w₂, hw₂eq, hw₂p⟩ := foldl_settle_keep d₁.net d₁ s₂
    (s₁.foldl settleOne []) []
    (by
      intro e he
      rw [List.append_nil] at he
      exact hF₁ e he)
    hd₁v props₂
  rw [hw₂eq, List.nil_append, List.foldl_cons] at h1
  have hstep2 : settleOne ((s₁.foldl settleOne []) ++ d₁ :: w₂) d₂ =
      (s₁.foldl settleOne []) ++ d₁ :: w₂ :=
    settleOne_dup _ _ d₁ d₂ hver hplen hfirst hreg
      (by
        intro e he hve
        rcases List.mem_append.mp he with he | he
        · exact (hF₁ e he).2 hve
        · exact (hw₂p e he).2 hve)
  rw [hstep2] at h1
  obtain ⟨w₃, hw₃eq, hw₃p⟩ := foldl_settle_keep d₁.net d₁ s₃
    (s₁.foldl settleOne []) w₂
    (by
      intro e he
      rcases List.mem_append.mp he with he | he
      · exact hF₁ e he
      · exact hw₂p e he)
    hd₁v props₃
  rw [hw₃eq] at h1
  constructor
  · rw [h1]
    exact List.mem_append.mpr (Or.inr (List.mem_cons_self _ _))
  · intro e he hve hnd
    rw [h1] at he
    rcases List.mem_append.mp he with he | he
    · exact absurd ((hF₁ e he).2 hve) hnd
    · rcases List.mem_cons.mp he with heq | he
      · exact heq
      · rcases List.mem_append.mp he with he | he
        · exact absurd ((hw₂p e he).2 hve) hnd
        · exact absurd ((hw₃p e he).2 hve) hnd

/-- Witness for the amended C4 at a concrete input: the two-entry duplicate
scenario `172.16.0.0/20` claimed by regions A (first) and B. -/
theorem claim_C4_witness :
    (∀ e ∈ dupInputAB, ValidNet e.net) ∧
    sortEntries dupInputAB =
      [] ++ (⟨dupBlock, "A", 1⟩ : Entry) ::
        ([] ++ (⟨dupBlock, "B", 2⟩ : Entry) :: []) ∧
    (⟨dupBlock, "A", 1⟩ : Entry).region ≠ (⟨dupBlock, "B", 2⟩ : Entry).region ∧
    ((⟨dupBlock, "A", 1⟩ : Entry) ∈ resolve dupInputAB ∧
      ∀ e ∈ resolve dupInputAB,
        e.net.version = (⟨dupBlock, "A", 1⟩ : Entry).net.version →
        ¬ rangesDisjoint e.net (⟨dupBlock, "A", 1⟩ : Entry).net →
        e = ⟨dupBlock, "A", 1⟩) :=
  ⟨by decide, by decide, by decide,
    claim_C4 dupInputAB [] [] [] ⟨dupBlock, "A", 1⟩ ⟨dupBlock, "B", 2⟩
      (by decide) (by decide) rfl rfl rfl (by decide) (by decide)⟩

/-- C5, counterexample to the literal claim: the same two-entry set (regions
A and B both claiming `172.16.0.0/20`) presented in the two arrival orders
produces different per-region outputs, because the sort key of line 84 omits
the region and Python's stable sort leaves exact duplicates in arrival
order, so the "first claim wins" winner depends on fetch-completion order. -/
theorem claim_C5_counterexample :
    dupInputAB.Perm dupInputBA ∧
      regionOutput dupInputAB "A" ≠ regionOutput dupInputBA "A" := by
  constructor
  · decide
  · decide

/-- C5, amended: given identical input entry sets in which no two *distinct*
entries share the same family, prefix length, and base address (in
particular, no two regions claim the identical block), the resolver/merger
pipeline produces identical per-region output regardless of the
iteration/arrival order of the entries. -/
theorem claim_C5 (l₁ l₂ : List Entry) (hp : l₁.Perm l₂)
    (huniq : ∀ a ∈ l₁, ∀ b ∈ l₁, a.net.version = b.net.version →
      a.net.plen = b.net.plen → a.net.first = b.net.first → a = b) :
    ∀ r, regionOutput l₁ r = regionOutput l₂ r := by
  intro r
  have hsort := sortEntries_eq_of_perm l₁ l₂ hp huniq
  unfold regionOutput resolve
  rw [hsort]

/-- Witness for the amended C5 at a concrete input. -/
theorem claim_C5_witness :
    ([(⟨dupBlock, "A", 1⟩ : Entry), ⟨dupInner, "A", 7⟩].Perm
      [(⟨dupInner, "A", 7⟩ : Entry), ⟨dupBlock, "A", 1⟩]) ∧
    (∀ a ∈ [(⟨dupBlock, "A", 1⟩ : Entry), ⟨dupInner, "A", 7⟩],
      ∀ b ∈ [(⟨dupBlock, "A", 1⟩ : Entry), ⟨dupInner, "A", 7⟩],
        a.net.version = b.net.version → a.net.plen = b.net.plen →
        a.net.first = b.net.first → a = b) ∧
    regionOutput [(⟨dupBlock, "A", 1⟩ : Entry), ⟨dupInner, "A", 7⟩] "A" =
      regionOutput [(⟨dupInner, "A", 7⟩ : Entry), ⟨dupBlock, "A", 1⟩] "A" :=
  ⟨by decide, by decide,
    claim_C5 [⟨dupBlock, "A", 1⟩, ⟨dupInner, "A", 7⟩]
      [⟨dupInner, "A", 7⟩, ⟨dupBlock, "A", 1⟩] (by decide) (by decide) "A"⟩

/-- C6: the claim states that re-running the Resolver and Merger on their
own output (each block assigned to the region that produced it) leaves the
output unchanged.  The code violates this: on `overlapBugInput` the first
run leaves a cross-region overlap (see C1), and the second run carves it,
shrinking region X's list from `[10.0.0.0/9]` to `[10.0.0.0/10]`.  This
theorem evaluates both runs at that failing input. -/
theorem claim_C6_bug :
    regionOutput (rerunEntries overlapBugInput ["X", "Y"]) "X" ≠
      regionOutput overlapBugInput "X" := by decide

/-- C7: every block in a region's final output lies inside the union of the
networks originally parsed for that region — resolution never attributes to
a region address space it did not announce. -/
theorem claim_C7 (entries : List Entry) (hv : ∀ e ∈ entries, ValidNet e.net)
    (r : String) : ∀ v x, coveredV (regionBlocks entries r) v x →
      ∃ e ∈ entries, e.region = r ∧ e.net.version = v ∧ inNet x e.net := by
  intro v x h
  have hrv := resolve_valid entries hv
  unfold regionBlocks regionOutput at h
  have hfv : ∀ n ∈ ((resolve entries).filter
      fun e => e.region == r).map Entry.net, ValidNet n := by
    intro n hn
    rw [List.mem_map] at hn
    obtain ⟨e₀, he₀, rfl⟩ := hn
    exact hrv e₀ (List.mem_of_mem_filter he₀)
  rw [split_merge_cover _ hfv v x, coveredV_map_entry] at h
  obtain ⟨e', he', hev, hex⟩ := h
  have hr : e'.region = r := by
    have h2 := (List.mem_filter.mp he').2
    simpa using h2
  obtain ⟨e, he, her, hever, hexx⟩ := resolve_origin entries hv e'
    (List.mem_of_mem_filter he') x hex
  exact ⟨e, he, by rw [her, hr], by rw [hever, hev], hexx⟩

/-- Witness for C7 at a concrete input. -/
theorem claim_C7_witness :
    (∀ e ∈ dupInputAB, ValidNet e.net) ∧
      (coveredV (regionBlocks dupInputAB "A") 4 2886729728 →
        ∃ e ∈ dupInputAB, e.region = "A" ∧ e.net.version = 4 ∧
          inNet 2886729728 e.net) :=
  ⟨by decide, claim_C7 dupInputAB (by decide) "A" 4 2886729728⟩

/-- C8: a prefix string that fails CIDR parsing is skipped while the rest of
its batch (and the rest of the run) is processed normally, both in
`gather_prefixes` and in `split_and_merge`: deleting the malformed string
from the input leaves the result unchanged, so a malformed prefix is never
fatal. -/
theorem claim_C8 (parse : String → Option Net) (bad : String)
    (hbad : parse bad = none) (pre post : List (String × Nat × List String))
    (r : String) (a : Nat) (ps₁ ps₂ : List String) :
    gather_all_networks parse (pre ++ (r, a, ps₁ ++ bad :: ps₂) :: post) =
      gather_all_networks parse (pre ++ (r, a, ps₁ ++ ps₂) :: post) ∧
    split_and_merge parse (ps₁ ++ bad :: ps₂) =
      split_and_merge parse (ps₁ ++ ps₂) := by
  constructor
  · unfold gather_all_networks
    rw [List.flatMap_append, List.flatMap_append]
    congr 1
    rw [List.flatMap_cons, List.flatMap_cons]
    congr 1
    simp only
    rw [List.filterMap_append, List.filterMap_append]
    congr 1
    rw [List.filterMap_cons, hbad]
    rfl
  · have h2 : (ps₁ ++ bad :: ps₂).filterMap parse =
        (ps₁ ++ ps₂).filterMap parse := by
      rw [List.filterMap_append, List.filterMap_append]
      congr 1
      rw [List.filterMap_cons, hbad]
    unfold split_and_merge
    rw [h2]

/-- Witness for C8 at a concrete input. -/
theorem claim_C8_witness :
    ((fun s => if s = "oops" then none else some (⟨4, 0, 24⟩ : Net)) "oops"
        = none) ∧
    (gather_all_networks
        (fun s => if s = "oops" then none else some (⟨4, 0, 24⟩ : Net))
        ([] ++ ("SG", 44907, ["10.0.0.0/8"] ++ "oops" :: []) :: []) =
      gather_all_networks
        (fun s => if s = "oops" then none else some (⟨4, 0, 24⟩ : Net))
        ([] ++ ("SG", 44907, ["10.0.0.0/8"] ++ []) :: []) ∧
    split_and_merge
        (fun s => if s = "oops" then none else some (⟨4, 0, 24⟩ : Net))
        (["10.0.0.0/8"] ++ "oops" :: []) =
      split_and_merge
        (fun s => if s = "oops" then none else some (⟨4, 0, 24⟩ : Net))
        (["10.0.0.0/8"] ++ [])) :=
  ⟨by decide,
    claim_C8 (fun s => if s = "oops" then none else some (⟨4, 0, 24⟩ : Net))
      "oops" (by decide) [] [] "SG" 44907 ["10.0.0.0/8"] []⟩

/-- C9: every configured region receives an output file on every run, and a
region for which every fetch returned nothing gets a file whose header
carries all-zero v4/v6/total counts. -/
theorem claim_C9 (ipStr : Net → String) (updatedAt : String)
    (parse : String → Option Net)
    (batches : List (String × Nat × List String)) :
    ((main_outputs ipStr updatedAt parse batches).map Prod.fst =
      ["TelegramSG.list", "TelegramUS.list", "TelegramEU.list"]) ∧
    ∀ ra ∈ REGION_ASNS, (∀ b ∈ batches, b.1 = ra.1 → b.2.2 = []) →
      ∃ lines,
        (fileName ra.1, lines) ∈ main_outputs ipStr updatedAt parse batches ∧
        lines[4]? = some "# IP-CIDR: 0" ∧ lines[5]? = some "# IP6-CIDR: 0" ∧
        lines[6]? = some "# TOTAL: 0" := by
  constructor
  · rfl
  · intro ra hra hfail
    have hempty : (resolve (gather_all_networks parse batches)).filter
        (fun e => e.region == ra.1) = [] := by
      rw [List.filter_eq_nil_iff]
      intro e' he' hbe
      have hbe2 : e'.region = ra.1 := by simpa using hbe
      obtain ⟨e, he, hee⟩ := resolve_region _ e' he'
      obtain ⟨b, hb, heb, hbne⟩ := gather_mem_region parse batches e he
      exact hbne (hfail b hb (by rw [← heb, ← hee, hbe2]))
    refine ⟨write_region_file_lines ipStr ra.1 updatedAt [] [], ?_, ?_, ?_, ?_⟩
    · unfold main_outputs gather_region_nets
      rw [List.map_map]
      refine List.mem_map.mpr ⟨ra, hra, ?_⟩
      simp only [Function.comp_apply]
      rw [hempty]
      rfl
    · rfl
    · rfl
    · rfl

/-- Witness for C9 at a concrete input. -/
theorem claim_C9_witness :
    (("SG", [44907, 62014]) ∈ REGION_ASNS) ∧
    (∀ b ∈ [("SG", 44907, ([] : List String))],
      b.1 = ("SG", [44907, 62014]).1 → b.2.2 = []) ∧
    (∃ lines,
      (fileName ("SG", [44907, 62014]).1, lines) ∈
        main_outputs (fun _ => "") "" (fun _ => none)
          [("SG", 44907, ([] : List String))] ∧
      lines[4]? = some "# IP-CIDR: 0" ∧ lines[5]? = some "# IP6-CIDR: 0" ∧
      lines[6]? = some "# TOTAL: 0") :=
  ⟨by decide, by decide,
    (claim_C9 (fun _ => "") "" (fun _ => none)
        [("SG", 44907, ([] : List String))]).2
      ("SG", [44907, 62014]) (by decide) (by decide)⟩

/-- C10: in every region file, the `IP-CIDR`, `IP6-CIDR` and `TOTAL` counts
in the header equal, respectively, the number of `IP-CIDR` body lines, the
number of `IP6-CIDR` body lines, and their sum in that same file. -/
theorem claim_C10 (ipStr : Net → String) (region updatedAt : String)
    (v4_networks v6_networks : List Net) :
    (write_region_file_lines ipStr region updatedAt v4_networks
        v6_networks)[4]? =
      some ("# IP-CIDR: " ++ toString ((write_region_file_lines ipStr region
        updatedAt v4_networks v6_networks).countP isV4Line)) ∧
    (write_region_file_lines ipStr region updatedAt v4_networks
        v6_networks)[5]? =
      some ("# IP6-CIDR: " ++ toString ((write_region_file_lines ipStr region
        updatedAt v4_networks v6_networks).countP isV6Line)) ∧
    (write_region_file_lines ipStr region updatedAt v4_networks
        v6_networks)[6]? =
      some ("# TOTAL: " ++ toString
        ((write_region_file_lines ipStr region updatedAt v4_networks
          v6_networks).countP isV4Line +
         (write_region_file_lines ipStr region updatedAt v4_networks
          v6_networks).countP isV6Line)) := by
  have hlines : write_region_file_lines ipStr region updatedAt v4_networks
      v6_networks =
      build_header region updatedAt (sort_networks v4_networks).length
          (sort_networks v6_networks).length
        ++ (sort_networks v4_networks).map
            (fun n => "IP-CIDR," ++ ipStr n ++ ",Telegram" ++ region)
        ++ (sort_networks v6_networks).map
            (fun n => "IP6-CIDR," ++ ipStr n ++ ",Telegram" ++ region) := rfl
  have hbody4 : ∀ s ∈ (sort_networks v4_networks).map
      (fun n => "IP-CIDR," ++ ipStr n ++ ",Telegram" ++ region),
      isV4Line s = true ∧ isV6Line s = false := by
    intro s hs
    rw [List.mem_map] at hs
    obtain ⟨n, hn, rfl⟩ := hs
    rw [String.append_assoc, String.append_assoc]
    exact ⟨isV4Line_true _, isV6Line_v4_false _⟩
  have hbody6 : ∀ s ∈ (sort_networks v6_networks).map
      (fun n => "IP6-CIDR," ++ ipStr n ++ ",Telegram" ++ region),
      isV6Line s = true ∧ isV4Line s = false := by
    intro s hs
    rw [List.mem_map] at hs
    obtain ⟨n, hn, rfl⟩ := hs
    rw [String.append_assoc, String.append_assoc]
    exact ⟨isV6Line_true _, isV4Line_v6_false _⟩
  have hheader4 : (build_header region updatedAt
      (sort_networks v4_networks).length
      (sort_networks v6_networks).length).countP isV4Line = 0 := by
    have h0 : isV4Line ("# NAME: Telegram" ++ region) = false :=
      isV4Line_false_of_ne _ _ (by decide) (by decide)
    have h1 : isV4Line ("# AUTHOR: " ++ author) = false := by decide
    have h2 : isV4Line ("# REPO: https://github.com/" ++ author ++ "/"
        ++ repo_name) = false := by decide
    have h3 : isV4Line ("# UPDATED: " ++ updatedAt) = false :=
      isV4Line_false_of_ne _ _ (by decide) (by decide)
    have h4 : isV4Line ("# IP-CIDR: "
        ++ toString (sort_networks v4_networks).length) = false :=
      isV4Line_false_of_ne _ _ (by decide) (by decide)
    have h5 : isV4Line ("# IP6-CIDR: "
        ++ toString (sort_networks v6_networks).length) = false :=
      isV4Line_false_of_ne _ _ (by decide) (by decide)
    have h6 : isV4Line ("# TOTAL: "
        ++ toString ((sort_networks v4_networks).length
          + (sort_networks v6_networks).length)) = false :=
      isV4Line_false_of_ne _ _ (by decide) (by decide)
    unfold build_header
    simp [List.countP_cons, h0, h1, h2, h3, h4, h5, h6]
  have hheader6 : (build_header region updatedAt
      (sort_networks v4_networks).length
      (sort_networks v6_networks).length).countP isV6Line = 0 := by
    have h0 : isV6Line ("# NAME: Telegram" ++ region) = false :=
      isV6Line_false_of_ne _ _ (by decide) (by decide)
    have h1 : isV6Line ("# AUTHOR: " ++ author) = false := by decide
    have h2 : isV6Line ("# REPO: https://github.com/" ++ author ++ "/"
        ++ repo_name) = false := by decide
    have h3 : isV6Line ("# UPDATED: " ++ updatedAt) = false :=
      isV6Line_false_of_ne _ _ (by decide) (by decide)
    have h4 : isV6Line ("# IP-CIDR: "
        ++ toString (sort_networks v4_networks).length) = false :=
      isV6Line_false_of_ne _ _ (by decide) (by decide)
    have h5 : isV6Line ("# IP6-CIDR: "
        ++ toString (sort_networks v6_networks).length) = false :=
      isV6Line_false_of_ne _ _ (by decide) (by decide)
    have h6 : isV6Line ("# TOTAL: "
        ++ toString ((sort_networks v4_networks).length
          + (sort_networks v6_networks).length)) = false :=
      isV6Line_false_of_ne _ _ (by decide) (by decide)
    unfold build_header
    simp [List.countP_cons, h0, h1, h2, h3, h4, h5, h6]
  have hc4 : (write_region_file_lines ipStr region updatedAt v4_networks
      v6_networks).countP isV4Line = (sort_networks v4_networks).length := by
    rw [hlines, List.countP_append, List.countP_append, hheader4]
    have hb4 := List.countP_eq_length.mpr (fun s hs => (hbody4 s hs).1)
    have hb6 : List.countP isV4Line ((sort_networks v6_networks).map
        (fun n => "IP6-CIDR," ++ ipStr n ++ ",Telegram" ++ region)) = 0 :=
      List.countP_eq_zero.mpr
        (fun s hs => by rw [(hbody6 s hs).2]; exact Bool.false_ne_true)
    rw [hb4, hb6, List.length_map]
    omega
  have hc6 : (write_region_file_lines ipStr region updatedAt v4_networks
      v6_networks).countP isV6Line = (sort_networks v6_networks).length := by
    rw [hlines, List.countP_append, List.countP_append, hheader6]
    have hb6 := List.countP_eq_length.mpr (fun s hs => (hbody6 s hs).1)
    have hb4 : List.countP isV6Line ((sort_networks v4_networks).map
        (fun n => "IP-CIDR," ++ ipStr n ++ ",Telegram" ++ region)) = 0 :=
      List.countP_eq_zero.mpr
        (fun s hs => by rw [(hbody4 s hs).2]; exact Bool.false_ne_true)
    rw [hb6, hb4, List.length_map]
    omega
  have hgl : ∀ k : Nat, k < 7 →
      (write_region_file_lines ipStr region updatedAt v4_networks
        v6_networks)[k]? =
      (build_header region updatedAt (sort_networks v4_networks).length
        (sort_networks v6_networks).length)[k]? := by
    intro k hk
    rw [hlines]
    rw [List.getElem?_append_left, List.getElem?_append_left]
    · show k < (build_header region updatedAt _ _).length
      unfold build_header
      simp
      omega
    · rw [List.length_append]
      have : (build_header region updatedAt (sort_networks v4_networks).length
          (sort_networks v6_networks).length).length = 7 := rfl
      omega
  refine ⟨?_, ?_, ?_⟩
  · rw [hc4, hgl 4 (by omega)]
    rfl
  · rw [hc6, hgl 5 (by omega)]
    rfl
  · rw [hc4, hc6, hgl 6 (by omega)]
    rfl
